import Mathlib

/-!
Verification of the Auto-Programmer execution engine against its
natural-language specification.

The development shallowly embeds the parts of the code base that the
claims are about:

* `ProjectBuilder` (project_builder.py): the line-diff application
  logic (`_apply_line_diffs`), the full-replace build
  (`build_project_structure`), the modification build
  (`apply_modifications`) and the requirements-content sanitization
  (`_sanitize_requirements_content`).
* `StepHandler` (step_handler.py): the initial-generation attempt loop
  (`_execute_initial_generation_step`), shape validation
  (`_validate_initial_code_response`) and the dependency-file
  sanitization (`_sanitize_dependency_file`).
* `ProjectState.mark_step_as_successful` (project_state.py).
* `WorkflowController.run_steps_execution_phase`
  (workflow_controller.py): the Kahn-style dependency scheduler.

File contents are modelled as Lean `String`s.  Python's
`str.splitlines` is modelled for the line feed terminator (the code
itself only ever writes files joined with a single line feed); the
additional unicode terminators Python recognises are orthogonal to
every claim treated here.
-/

namespace AutoProg

/-! ## Python string helpers

All string manipulation is defined by structural recursion on the
underlying character lists, so that every definition evaluates inside
the kernel. -/

/-- Splitting a character list on a separator character, keeping empty
segments (Python `str.split(sep)` and Lean `String.splitOn`
behaviour). -/
def splitOnCharCore (sep : Char) : List Char → List (List Char)
  | [] => [[]]
  | c :: rest =>
    if c = sep then [] :: splitOnCharCore sep rest
    else
      match splitOnCharCore sep rest with
      | [] => [[c]]
      | l :: ls => (c :: l) :: ls

/-- Whether one character list is a prefix of another. -/
def isPrefixCore : List Char → List Char → Bool
  | [], _ => true
  | _ :: _, [] => false
  | a :: as, b :: bs => a == b && isPrefixCore as bs

/-- The characters Python `str.strip()` removes (the ASCII ones; the
further unicode spaces Python recognises play no role here). -/
def pyIsSpace (c : Char) : Bool :=
  c = ' ' || c = '\t' || c = '\n' || c = '\r' || c = '\x0b' || c = '\x0c'

/-- Python `str.strip()`. -/
def pyStrip (s : String) : String :=
  ⟨((s.data.dropWhile pyIsSpace).reverse.dropWhile pyIsSpace).reverse⟩

/-- Python `str.lower()` (ASCII letters, the only ones arising
here). -/
def pyLower (s : String) : String :=
  ⟨s.data.map Char.toLower⟩

/-- Python `str.startswith`. -/
def pyStartsWith (s pre : String) : Bool :=
  isPrefixCore pre.data s.data

/-- Core of Python `str.splitlines` on character lists, for the line
feed terminator: a final line feed does not open a trailing empty
line (`"a\n".splitlines() == ["a"]`, `"".splitlines() == []`,
`"\n".splitlines() == [""]`). -/
def splitLinesCore : List Char → List (List Char)
  | [] => []
  | c :: rest =>
    if c = '\n' then [] :: splitLinesCore rest
    else
      match splitLinesCore rest with
      | [] => [[c]]
      | l :: ls => (c :: l) :: ls

/-- Python `str.splitlines` (line-feed terminator). -/
def pySplitlines (s : String) : List String :=
  (splitLinesCore s.data).map (fun l => ⟨l⟩)

/-- Python `"\n".join(lines)`. -/
def joinLines (ls : List String) : String :=
  ⟨List.intercalate ['\n'] (ls.map String.data)⟩

example : pySplitlines "a\nb" = ["a", "b"] := by decide
example : pySplitlines "a\n" = ["a"] := by decide
example : pySplitlines "" = [] := by decide
example : pySplitlines "a\n\n" = ["a", ""] := by decide
example : joinLines ["a", "b"] = "a\nb" := by decide

/-! ## Line-range edits (`ProjectBuilder._apply_line_diffs`) -/

/-- One entry of the `diffs` list of a `line_diff` instruction.  The
fields mirror the dictionary keys the code reads with `dict.get`;
`none` models a missing key. -/
structure LineDiff where
  startLine : Option Int
  endLine : Option Int
  newContent : Option String
deriving Repr, DecidableEq

/-- Sort key used by the code: `diff.get("start_line", 0)`. -/
def LineDiff.sortKey (d : LineDiff) : Int :=
  d.startLine.getD 0

/-- Stable insertion of an element into a descending-sorted list:
the element goes after every element whose key is at least its own,
which is exactly where Python's stable `sorted(..., reverse=True)`
places it. -/
def insertDesc (d : LineDiff) : List LineDiff → List LineDiff
  | [] => [d]
  | e :: es =>
    if d.sortKey ≤ e.sortKey then e :: insertDesc d es
    else d :: e :: es

/-- Python `sorted(diffs, key=lambda x: x.get("start_line", 0),
reverse=True)`.  Python's sort is stable, so any stable
descending-by-key sort computes the same list; it is modelled here as
a stable insertion sort. -/
def pySortDesc (diffs : List LineDiff) : List LineDiff :=
  diffs.foldl (fun acc d => insertDesc d acc) []

/-- The 0-based start index the code computes:
`start_line = diff.get("start_line", 1) - 1`. -/
def diffStart (d : LineDiff) : Int :=
  d.startLine.getD 1 - 1

/-- The (exclusive) stop index the code computes:
`end_line = diff.get("end_line", start_line + 1)`. -/
def diffStop (d : LineDiff) : Int :=
  d.endLine.getD (diffStart d + 1)

/-- The skip condition of the sorted loop of `_apply_line_diffs`:
`start_line < 0 or end_line > len(lines) or start_line >= end_line`
(with `numLines` the current number of lines). -/
def diffSkipped (numLines : Nat) (d : LineDiff) : Prop :=
  diffStart d < 0 ∨ diffStop d > (numLines : Int) ∨ diffStart d ≥ diffStop d

instance (numLines : Nat) (d : LineDiff) : Decidable (diffSkipped numLines d) := by
  unfold diffSkipped; infer_instance

/-- Application of one line diff to the current list of lines,
mirroring the body of the sorted loop of `_apply_line_diffs`: a
skipped diff leaves the lines alone, otherwise
`lines[start_line:end_line] = new_content_lines`. -/
def applyOneDiff (lines : List String) (d : LineDiff) : List String :=
  let newContentLines := pySplitlines (d.newContent.getD "")
  if diffSkipped lines.length d then lines
  else lines.take (diffStart d).toNat ++ newContentLines ++ lines.drop (diffStop d).toNat

/-- `ProjectBuilder._apply_line_diffs`.  The file content before the
call is `none` when the file does not exist (the code then joins the
raw `new_content` strings into a fresh file); otherwise the content is
split into lines, the diffs are applied in descending start-line
order, and the joined lines are written back.  The returned string is
the content written to the file. -/
def applyLineDiffs (fileContent : Option String) (diffs : List LineDiff) : String :=
  match fileContent with
  | none => joinLines (diffs.map (fun d => d.newContent.getD ""))
  | some content =>
    joinLines ((pySortDesc diffs).foldl applyOneDiff (pySplitlines content))

example :
    applyLineDiffs (some "l1\nl2\nl3\nl4\nl5\nl6\nl7\nl8\nl9\nl10")
      [⟨some 2, some 4, some "X"⟩, ⟨some 6, some 7, some "Y"⟩]
      = "l1\nX\nl5\nY\nl8\nl9\nl10" := by decide

/-! ## A model of `json.loads` (used only by the requirements-content
sanitization) -/

/-- JSON values as produced by Python `json.loads`.  Numeric lexemes
are kept uninterpreted: no code path treated here inspects a numeric
value. -/
inductive JsonValue where
  | null
  | boolean (b : Bool)
  | num (lexeme : String)
  | str (s : String)
  | arr (xs : List JsonValue)
  | obj (fields : List (String × JsonValue))
deriving Repr

/-- JSON insignificant whitespace. -/
def jsonSkipWs : List Char → List Char
  | c :: rest =>
    if c = ' ' ∨ c = '\t' ∨ c = '\n' ∨ c = '\r' then jsonSkipWs rest
    else c :: rest
  | [] => []

/-- Value of a hexadecimal digit. -/
def hexDigitVal (c : Char) : Option Nat :=
  if '0' ≤ c ∧ c ≤ '9' then some (c.toNat - '0'.toNat)
  else if 'a' ≤ c ∧ c ≤ 'f' then some (c.toNat - 'a'.toNat + 10)
  else if 'A' ≤ c ∧ c ≤ 'F' then some (c.toNat - 'A'.toNat + 10)
  else none

/-- Body of a JSON string literal, after the opening quote; returns
the decoded characters and the input after the closing quote. -/
def parseJsonStringBody (fuel : Nat) (acc : List Char) :
    List Char → Option (List Char × List Char)
  | [] => none
  | c :: rest =>
    match fuel with
    | 0 => none
    | fuel + 1 =>
      if c = '"' then some (acc.reverse, rest)
      else if c = '\\' then
        match rest with
        | [] => none
        | e :: rest2 =>
          if e = '"' then parseJsonStringBody fuel ('"' :: acc) rest2
          else if e = '\\' then parseJsonStringBody fuel ('\\' :: acc) rest2
          else if e = '/' then parseJsonStringBody fuel ('/' :: acc) rest2
          else if e = 'b' then parseJsonStringBody fuel ('\x08' :: acc) rest2
          else if e = 'f' then parseJsonStringBody fuel ('\x0c' :: acc) rest2
          else if e = 'n' then parseJsonStringBody fuel ('\n' :: acc) rest2
          else if e = 'r' then parseJsonStringBody fuel ('\r' :: acc) rest2
          else if e = 't' then parseJsonStringBody fuel ('\t' :: acc) rest2
          else if e = 'u' then
            match rest2 with
            | h1 :: h2 :: h3 :: h4 :: rest3 =>
              match hexDigitVal h1, hexDigitVal h2, hexDigitVal h3, hexDigitVal h4 with
              | some a, some b, some c, some d =>
                let n := ((a * 16 + b) * 16 + c) * 16 + d
                if n.isValidChar then
                  parseJsonStringBody fuel (Char.ofNat n :: acc) rest3
                else
                  parseJsonStringBody fuel ('�' :: acc) rest3
              | _, _, _, _ => none
            | _ => none
          else none
      else parseJsonStringBody fuel (c :: acc) rest

/-- Whether a character may occur in a JSON number lexeme. -/
def isJsonNumChar (c : Char) : Bool :=
  c.isDigit || c = '-' || c = '+' || c = '.' || c = 'e' || c = 'E'

/-- Longest run of number-lexeme characters. -/
def takeJsonNum : List Char → List Char × List Char
  | [] => ([], [])
  | c :: rest =>
    if isJsonNumChar c then
      let r := takeJsonNum rest
      (c :: r.1, r.2)
    else ([], c :: rest)

/-- Rough well-formedness of a number lexeme (enough to reject the
garbage `json.loads` rejects in the inputs this model meets). -/
def jsonNumOk (l : List Char) : Bool :=
  l.any Char.isDigit && (l.headI = '-' || (l.headI).isDigit)

mutual

/-- One JSON value, returning the remaining input. -/
def parseJsonValue (fuel : Nat) (s : List Char) :
    Option (JsonValue × List Char) :=
  match fuel with
  | 0 => none
  | fuel + 1 =>
    match jsonSkipWs s with
    | [] => none
    | c :: rest =>
      if c = '"' then
        match parseJsonStringBody (fuel + 1) [] rest with
        | some (cs, rest2) => some (JsonValue.str ⟨cs⟩, rest2)
        | none => none
      else if c = '{' then parseJsonObj fuel true (jsonSkipWs rest) []
      else if c = '[' then parseJsonArr fuel true (jsonSkipWs rest) []
      else if c = 't' then
        match rest with
        | 'r' :: 'u' :: 'e' :: rest2 => some (JsonValue.boolean true, rest2)
        | _ => none
      else if c = 'f' then
        match rest with
        | 'a' :: 'l' :: 's' :: 'e' :: rest2 => some (JsonValue.boolean false, rest2)
        | _ => none
      else if c = 'n' then
        match rest with
        | 'u' :: 'l' :: 'l' :: rest2 => some (JsonValue.null, rest2)
        | _ => none
      else if isJsonNumChar c then
        let r := takeJsonNum (c :: rest)
        if jsonNumOk r.1 then some (JsonValue.num ⟨r.1⟩, r.2) else none
      else none

/-- Members of a JSON object after the opening brace (given with the
leading whitespace already skipped); `first` is true before the first
member. -/
def parseJsonObj (fuel : Nat) (first : Bool) (s : List Char)
    (acc : List (String × JsonValue)) : Option (JsonValue × List Char) :=
  match fuel with
  | 0 => none
  | fuel + 1 =>
    match s with
    | [] => none
    | c :: rest =>
      if c = '}' ∧ first then some (JsonValue.obj acc.reverse, rest)
      else
        let s2 := if first then c :: rest
          else if c = ',' then jsonSkipWs rest else []
        match s2 with
        | '"' :: keyRest =>
          match parseJsonStringBody (fuel + 1) [] keyRest with
          | some (key, afterKey) =>
            match jsonSkipWs afterKey with
            | ':' :: afterColon =>
              match parseJsonValue fuel afterColon with
              | some (v, afterVal) =>
                match jsonSkipWs afterVal with
                | '}' :: rest2 =>
                  some (JsonValue.obj ((⟨key⟩, v) :: acc).reverse, rest2)
                | ',' :: rest2 =>
                  parseJsonObj fuel false (',' :: rest2) ((⟨key⟩, v) :: acc)
                | _ => none
              | none => none
            | _ => none
          | none => none
        | _ => none

/-- Elements of a JSON array after the opening bracket. -/
def parseJsonArr (fuel : Nat) (first : Bool) (s : List Char)
    (acc : List JsonValue) : Option (JsonValue × List Char) :=
  match fuel with
  | 0 => none
  | fuel + 1 =>
    match s with
    | [] => none
    | c :: rest =>
      if c = ']' ∧ first then some (JsonValue.arr acc.reverse, rest)
      else
        let s2 := if first then c :: rest
          else if c = ',' then jsonSkipWs rest else []
        match s2 with
        | [] => none
        | d :: rest2 =>
          match parseJsonValue fuel (d :: rest2) with
          | some (v, afterVal) =>
            match jsonSkipWs afterVal with
            | ']' :: rest3 => some (JsonValue.arr (v :: acc).reverse, rest3)
            | ',' :: rest3 => parseJsonArr fuel false (',' :: rest3) (v :: acc)
            | _ => none
          | none => none

end

/-- Python `json.loads`: a single JSON value spanning the whole
input. -/
def pyJsonLoads (s : String) : Option JsonValue :=
  match parseJsonValue (s.length + 1) s.data with
  | some (v, rest) => if jsonSkipWs rest = [] then some v else none
  | none => none

/-- Dictionary lookup on a parsed object: `json.loads` builds a
Python dict, where a duplicated key keeps its last value. -/
def jsonObjGet (fields : List (String × JsonValue)) (key : String) :
    Option JsonValue :=
  ((fields.filter (fun f => f.1 == key)).getLast?).map Prod.snd

/-! ## Paths and the requirements-content sanitization -/

/-- Python `pathlib.PurePath(p).name`: the last path component, with
empty and single-dot components dropped. -/
def pathName (p : String) : String :=
  ((((splitOnCharCore '/' p.data).map (fun l => (⟨l⟩ : String))).filter
      (fun c => c != "" && c != ".")).getLast?).getD ""

example : pathName "a/b/requirements.txt" = "requirements.txt" := by decide
example : pathName "requirements.txt" = "requirements.txt" := by decide
example : pathName "./deps/reqs.txt" = "reqs.txt" := by decide

/-- `ProjectBuilder._sanitize_requirements_content`: only for a file
whose basename is exactly `requirements.txt`, if the content parses as
a JSON object with a string under the key `content`, that inner string
replaces the content; in every other case the content is returned
verbatim. -/
def sanitizeRequirementsContent (filePathStr : String) (content : String) : String :=
  if pathName filePathStr ≠ "requirements.txt" then content
  else
    match pyJsonLoads content with
    | some (JsonValue.obj fields) =>
      match jsonObjGet fields "content" with
      | some (JsonValue.str newContent) => newContent
      | _ => content
    | _ => content

example :
    sanitizeRequirementsContent "requirements.txt"
      "\x7b\"content\": \"pytest\npsutil\"\x7d" = "pytest\npsutil" := by decide
example :
    sanitizeRequirementsContent "requirements.txt" "pytest\npsutil"
      = "pytest\npsutil" := by decide

/-! ## The two build modes of `ProjectBuilder` -/

/-- A materialized file tree: path string to file content.  The build
functions below own the whole target directory, so a plain map is the
whole observable state. -/
def PTree : Type := String → Option String

/-- One entry of the `files` list handed to
`build_project_structure`; `none` models a missing key. -/
structure FileInfo where
  path : Option String
  content : Option String
deriving Repr, DecidableEq

/-- The body of the write loop of `build_project_structure`: entries
with a missing or empty (falsy) path are skipped, every other entry
writes its sanitized content at its path. -/
def writeFileEntry (tree : PTree) (fi : FileInfo) : PTree :=
  match fi.path with
  | none => tree
  | some p =>
    if p = "" then tree
    else Function.update tree p
      (some (sanitizeRequirementsContent p (fi.content.getD "")))

/-- `ProjectBuilder.build_project_structure`: the target directory is
removed and recreated, so the prior tree is discarded wholesale, then
every file of the list is written. -/
def buildProjectStructure (_prior : PTree) (files : List FileInfo) : PTree :=
  files.foldl writeFileEntry (fun _ => none)

/-- One `modifications` instruction handed to
`apply_modifications`; `none` models a missing key. -/
structure Instruction where
  modType : Option String
  path : Option String
  content : Option String
  diffs : List LineDiff
deriving Repr, DecidableEq

/-- The body of the instruction loop of `apply_modifications`:
instructions with a missing or empty path are skipped;
`replace_file` and `new_file` write the sanitized content;
`line_diff` rewrites the file through `_apply_line_diffs`;
`delete_file` removes an existing file and ignores a missing one;
an unknown type is skipped. -/
def applyOneInstruction (tree : PTree) (ins : Instruction) : PTree :=
  match ins.path with
  | none => tree
  | some p =>
    if p = "" then tree
    else
      let sanitized := sanitizeRequirementsContent p (ins.content.getD "")
      if ins.modType = some "replace_file" ∨ ins.modType = some "new_file" then
        Function.update tree p (some sanitized)
      else if ins.modType = some "line_diff" then
        Function.update tree p (some (applyLineDiffs (tree p) ins.diffs))
      else if ins.modType = some "delete_file" then
        if (tree p).isSome then Function.update tree p none else tree
      else tree

/-- `ProjectBuilder.apply_modifications`: the target directory is
cleared and the base tree copied in whole, then the instructions are
applied in input order. -/
def applyModifications (basePath : PTree) (instructions : List Instruction) : PTree :=
  instructions.foldl applyOneInstruction basePath

/-! ## Dependency-file sanitization (`StepHandler._sanitize_dependency_file`) -/

/-- The fixed standard-library list of `_sanitize_dependency_file`. -/
def STANDARD_LIBS : List String :=
  ["sqlite3", "os", "sys", "json", "re", "datetime", "pathlib", "logging",
   "threading", "multiprocessing", "argparse", "collections", "subprocess",
   "shutil", "glob", "math", "random", "time", "uuid", "configparser",
   "hashlib", "tempfile", "unittest"]

/-- The filter of `_sanitize_dependency_file`: a line is kept when its
stripped text is non-empty and no standard-library name is a prefix of
its stripped, lowercased text. -/
def keepDependencyLine (line : String) : Bool :=
  pyStrip line != "" &&
    !(STANDARD_LIBS.any (fun lib => pyStartsWith (pyLower (pyStrip line)) lib))

/-- The line-list transformation performed by
`_sanitize_dependency_file`. -/
def sanitizeDependencyLines (lines : List String) : List String :=
  lines.filter keepDependencyLine

/-- `StepHandler._sanitize_dependency_file` at the content level: the
file is split into lines and filtered; the file is rewritten (joined
with line feeds, plus a trailing one) only when some line was
dropped. -/
def sanitizeDependencyFile (content : String) : String :=
  let lines := pySplitlines content
  let sanitized := sanitizeDependencyLines lines
  if sanitized.length < lines.length then joinLines sanitized ++ "\n"
  else content

example : sanitizeDependencyLines ["flask", "unittest"] = ["flask"] := by decide

/-! ## The per-task attempt loop (`StepHandler._execute_initial_generation_step`) -/

/-- Python `"sep".join(parts)`. -/
def joinWith (sep : String) (ls : List String) : String :=
  ⟨List.intercalate sep.data (ls.map String.data)⟩

/-- The result strings `execute_step` can return. -/
inductive StepResult where
  | success
  | failure
  | aborted
  | skipped
deriving Repr, DecidableEq

/-- The shape of a generator response as far as
`_validate_initial_code_response` inspects it: whether the response is
a JSON object, and which top-level keys it carries. -/
structure GenResponse where
  isDict : Bool
  keys : List String
deriving Repr, DecidableEq

/-- `StepHandler._validate_initial_code_response`. -/
def validateInitialCodeResponse (r : GenResponse) : Bool × String :=
  if !r.isDict then (false, "LLM响应不是一个有效的JSON对象。")
  else if !(r.keys.contains "files") then (false, "JSON响应中缺少'files'键。")
  else if !(r.keys.contains "usage_guide") then (false, "JSON响应中缺少'usage_guide'对象。")
  else (true, "")

/-- Header placed in front of the accumulated feedback from attempt 2
onward. -/
def feedbackHeaderInitial : String :=
  "你之前的尝试失败了。请分析下面的失败历史，修正你的代码...\n\n"

/-- The delimiter between two accumulated feedback messages. -/
def feedbackDelimiter : String := "\n---\n"

/-- The feedback message recorded for an attempt whose response failed
shape validation. -/
def shapeErrorFeedback (errMsg : String) : String :=
  "JSON格式错误: " ++ errMsg

/-- The feedback message recorded for an attempt whose tree build
failed. -/
def buildFailureFeedback : String :=
  "无法根据你返回的JSON构建项目文件结构。"

/-- The feedback section of an attempt prompt, built from the
cumulative feedback list: empty on the first attempt, otherwise the
header followed by every prior message joined by the delimiter. -/
def feedbackSectionOf (cumulativeFeedback : List String) : String :=
  if cumulativeFeedback.length ≠ 0 then
    feedbackHeaderInitial ++ joinWith feedbackDelimiter cumulativeFeedback
  else ""

/-- Python truthiness of the `result_payload` of `_build_and_verify`:
not `None` and not the empty string. -/
def truthyPayload : Option String → Bool
  | none => false
  | some s => s != ""

/-- What the model records about one executed attempt. -/
structure AttemptRecord where
  attemptNumber : Nat
  feedbackSection : String
  validationFailed : Bool
  buildAttempted : Bool
deriving Repr, DecidableEq

/-- The while loop of `_execute_initial_generation_step`.  The
external generator is the oracle `gen` (attempt number to response
shape), the tree build outcome is the oracle `buildOk`, and
`_build_and_verify` is the oracle `verify`; `remaining` counts the
attempts still allowed.  Returns the pair `execute_step` would return
together with the trace of executed attempts. -/
def initialGenLoop (gen : Nat → GenResponse) (buildOk : Nat → Bool)
    (verify : Nat → StepResult × Option String) :
    Nat → Nat → List String → List AttemptRecord →
    (StepResult × Option String) × List AttemptRecord
  | _, 0, _, trace => ((StepResult.aborted, none), trace)
  | attemptNumber, remaining + 1, cumulativeFeedback, trace =>
    let n := attemptNumber + 1
    let fbSection := feedbackSectionOf cumulativeFeedback
    let vres := validateInitialCodeResponse (gen n)
    if !vres.1 then
      initialGenLoop gen buildOk verify n remaining
        (cumulativeFeedback ++ [shapeErrorFeedback vres.2])
        (trace ++ [⟨n, fbSection, true, false⟩])
    else if !(buildOk n) then
      initialGenLoop gen buildOk verify n remaining
        (cumulativeFeedback ++ [buildFailureFeedback])
        (trace ++ [⟨n, fbSection, false, true⟩])
    else
      match verify n with
      | (StepResult.success, payload) =>
        ((StepResult.success, payload), trace ++ [⟨n, fbSection, false, true⟩])
      | (StepResult.failure, payload) =>
        if truthyPayload payload then
          initialGenLoop gen buildOk verify n remaining
            (cumulativeFeedback ++ [payload.getD ""])
            (trace ++ [⟨n, fbSection, false, true⟩])
        else ((StepResult.failure, payload), trace ++ [⟨n, fbSection, false, true⟩])
      | (act, payload) => ((act, payload), trace ++ [⟨n, fbSection, false, true⟩])

/-- `StepHandler._execute_initial_generation_step`: aborts outright
when the project definition or task data is missing (falsy), otherwise
runs the attempt loop with the configured attempt cap. -/
def executeInitialGenerationStep (defsPresent : Bool) (gen : Nat → GenResponse)
    (buildOk : Nat → Bool) (verify : Nat → StepResult × Option String)
    (maxAttempts : Nat) : (StepResult × Option String) × List AttemptRecord :=
  if !defsPresent then ((StepResult.aborted, none), [])
  else initialGenLoop gen buildOk verify 0 maxAttempts [] []

/-- The feedback message attempt `j` (1-based) records when every
response fails shape validation. -/
def shapeMsg (gen : Nat → GenResponse) (j : Nat) : String :=
  shapeErrorFeedback (validateInitialCodeResponse (gen (j + 1))).2

/-! ## The artifact store (`ProjectState.mark_step_as_successful`) -/

/-- The observable snapshot state owned by `ProjectState`: the rolling
latest-accepted tree and the per-task accepted snapshots. -/
structure Store where
  latest : PTree
  snapshots : Nat → Option PTree

/-- `ProjectState.mark_step_as_successful`: the existing snapshot
directory is removed and replaced by a full copy of the winning
attempt tree, and the latest-accepted directory is removed and
replaced by the same full copy. -/
def markStepAsSuccessful (stepNumber : Nat) (attemptTree : PTree) (st : Store) : Store :=
  { latest := attemptTree,
    snapshots := Function.update st.snapshots stepNumber (some attemptTree) }

/-! ## The dependency scheduler
(`WorkflowController.run_steps_execution_phase`)

A task mapping is a list of pairs of a step number and its dependency
list, in the insertion order of the Python `steps` dictionary.  The
step numbers are assumed pairwise distinct where a claim needs it (a
Python dictionary cannot hold a key twice). -/

/-- The step numbers, in mapping order. -/
def taskIds (tasks : List (Nat × List Nat)) : List Nat := tasks.map Prod.fst

/-- The dependency list of a step. -/
def depsOf (tasks : List (Nat × List Nat)) (i : Nat) : List Nat :=
  (((tasks.find? (fun p => p.1 == i))).map Prod.snd).getD []

/-- The dangling-dependency check of the graph-construction loop:
every referenced dependency is a known step number (the code returns
from the phase with an error at the first violation). -/
def danglingFree (tasks : List (Nat × List Nat)) : Bool :=
  tasks.all (fun p => p.2.all (fun d => (taskIds tasks).contains d))

/-- The adjacency list `adj_list[i]`: every step that lists `i` among
its dependencies, in mapping order, once per occurrence. -/
def adjOf (tasks : List (Nat × List Nat)) (i : Nat) : List Nat :=
  (tasks.map (fun p => p.2.filterMap (fun d => if d == i then some p.1 else none))).flatten

/-- The initial in-degree map: number of listed dependencies. -/
def initInDeg (tasks : List (Nat × List Nat)) : Nat → Int :=
  fun i => ((depsOf tasks i).length : Int)

/-- The initial ready queue: the zero-in-degree steps, in mapping
order. -/
def initQueue (tasks : List (Nat × List Nat)) : List Nat :=
  (taskIds tasks).filter (fun i => initInDeg tasks i == 0)

/-- What the scheduler knows when a task is dequeued and handed to
`execute_step`. -/
structure StartEvent where
  id : Nat
  completedAtStart : List Nat
  storeAtStart : Store

/-- The mutable state of the topological execution loop, plus the
trace of started tasks. -/
structure SchedState where
  queue : List Nat
  inDeg : Nat → Int
  completed : List Nat
  store : Store
  trace : List StartEvent

/-- The dependent-processing loop run after a task succeeds: each
dependent's in-degree is decremented, and a dependent reaching zero is
appended to the ready queue. -/
def processDeps (inDeg : Nat → Int) : List Nat → (Nat → Int) × List Nat
  | [] => (inDeg, [])
  | d :: rest =>
    let v := inDeg d - 1
    let r := processDeps (Function.update inDeg d v) rest
    (r.1, (if v = 0 then [d] else []) ++ r.2)

/-- The static inputs of one run of the execution phase: the task
mapping, and the behaviour of `execute_step` as an oracle (outcome per
task, winning attempt tree per task; within a run each task is
executed at most once, so indexing by task id is faithful). -/
structure SchedConfig where
  tasks : List (Nat × List Nat)
  outcome : Nat → StepResult
  winTree : Nat → PTree

/-- The while loop of `run_steps_execution_phase`, fuelled.  On
success the handler has already replaced the store (snapshot and
latest tree) before the scheduler sees the result, then the task joins
the completed set and its dependents are processed; on abort or skip
the phase returns at once with partial-completion truth value; the
remaining result value (`failure` from a declined manual confirmation
with no feedback text) completes nothing and the loop moves on.  With
the queue empty the phase reports whether every task completed.
`none` stands for exhausted fuel and is never reached from
`runScheduler`. -/
def runSched (cfg : SchedConfig) : Nat → SchedState → Option Bool × SchedState
  | 0, st => (none, st)
  | fuel + 1, st =>
    match st.queue with
    | [] => (some (decide (st.completed.length = cfg.tasks.length)), st)
    | i :: rest =>
      let trace2 := st.trace ++ [⟨i, st.completed, st.store⟩]
      match cfg.outcome i with
      | StepResult.success =>
        let store2 := markStepAsSuccessful i (cfg.winTree i) st.store
        let pd := processDeps st.inDeg (adjOf cfg.tasks i)
        runSched cfg fuel ⟨rest ++ pd.2, pd.1, st.completed ++ [i], store2, trace2⟩
      | StepResult.failure =>
        runSched cfg fuel ⟨rest, st.inDeg, st.completed, st.store, trace2⟩
      | _ =>
        (some (decide (0 < st.completed.length)),
          ⟨rest, st.inDeg, st.completed, st.store, trace2⟩)

/-- The scheduler state at the start of the phase: the workspace
starts with an empty latest-tree directory and no snapshots. -/
def initState (cfg : SchedConfig) : SchedState :=
  ⟨initQueue cfg.tasks, initInDeg cfg.tasks, [], ⟨fun _ => none, fun _ => none⟩, []⟩

/-- Fuel that, as proved below, suffices for the loop to run to its
exit. -/
def schedFuel (cfg : SchedConfig) : Nat :=
  cfg.tasks.length + (cfg.tasks.map (fun p => p.2.length)).sum + 1

/-- One full run of the execution phase on a task mapping. -/
def runScheduler (cfg : SchedConfig) : Option Bool × SchedState :=
  runSched cfg (schedFuel cfg) (initState cfg)

/-- The started tasks of a run, in order. -/
def startedIds (cfg : SchedConfig) : List Nat :=
  (runScheduler cfg).2.trace.map StartEvent.id

example :
    startedIds ⟨[(1, []), (2, [1]), (3, [1])], fun _ => StepResult.success,
      fun _ => fun _ => none⟩ = [1, 2, 3] := by decide

example :
    startedIds ⟨[(1, []), (3, [1]), (2, [1])], fun _ => StepResult.success,
      fun _ => fun _ => none⟩ = [1, 3, 2] := by decide

/-- Sum of the (clamped) in-degrees over the task ids: the loop's
termination measure together with the queue length. -/
def sumInDeg (ids : List Nat) (f : Nat → Int) : Nat :=
  (ids.map (fun i => (f i).toNat)).sum

/-- Termination measure of the execution loop. -/
def schedMeasure (cfg : SchedConfig) (st : SchedState) : Nat :=
  st.queue.length + sumInDeg (taskIds cfg.tasks) st.inDeg

/-- A dependency cycle in a task mapping: a nonempty set of step
numbers each of which lists a dependency inside the set. -/
def HasCycle (tasks : List (Nat × List Nat)) : Prop :=
  ∃ S ∈ (taskIds tasks).toFinset.powerset, S.Nonempty ∧
    ∀ i ∈ S, ∃ d ∈ depsOf tasks i, d ∈ S

instance (tasks : List (Nat × List Nat)) : Decidable (HasCycle tasks) := by
  unfold HasCycle; infer_instance

/-- The loop invariant of the execution phase, for arbitrary per-task
outcomes.  `deg` ties every in-degree to the number of
not-yet-completed dependency occurrences; the queue and the completed
list are duplicate-free task ids with zero in-degree, disjoint from
each other; the trace never repeats a task; every recorded start
happened with all dependencies completed, their accepted snapshots
already in the store. -/
structure SchedInv (cfg : SchedConfig) (st : SchedState) : Prop where
  deg : ∀ i ∈ taskIds cfg.tasks,
    st.inDeg i = ((depsOf cfg.tasks i).countP (fun d => decide (d ∉ st.completed)) : Int)
  cnodup : st.completed.Nodup
  csub : ∀ i ∈ st.completed, i ∈ taskIds cfg.tasks
  qnodup : st.queue.Nodup
  qsub : ∀ i ∈ st.queue, i ∈ taskIds cfg.tasks
  qzero : ∀ i ∈ st.queue, st.inDeg i = 0
  czero : ∀ i ∈ st.completed, st.inDeg i = 0
  qdisj : ∀ i ∈ st.queue, i ∉ st.completed
  tnodup : (st.trace.map StartEvent.id).Nodup
  tsub : ∀ i ∈ st.trace.map StartEvent.id, i ∈ taskIds cfg.tasks
  tzero : ∀ i ∈ st.trace.map StartEvent.id, st.inDeg i = 0
  tqdisj : ∀ i ∈ st.queue, i ∉ st.trace.map StartEvent.id
  tcomp : ∀ i ∈ st.completed, i ∈ st.trace.map StartEvent.id
  tdeps : ∀ ev ∈ st.trace, ∀ d ∈ depsOf cfg.tasks ev.id, d ∈ ev.completedAtStart
  tsnap : ∀ ev ∈ st.trace, ∀ d ∈ ev.completedAtStart,
    ev.storeAtStart.snapshots d = some (cfg.winTree d)
  snap : ∀ d ∈ st.completed, st.store.snapshots d = some (cfg.winTree d)

/-- The additional invariant of a run in which every executed task
succeeds: the trace is exactly the completed list, and every ready
task is queued or completed. -/
structure SchedInvS (cfg : SchedConfig) (st : SchedState) : Prop where
  teq : st.trace.map StartEvent.id = st.completed
  ready : ∀ i ∈ taskIds cfg.tasks, st.inDeg i = 0 →
    i ∈ st.queue ∨ i ∈ st.completed

/-- The cycle-avoidance invariant: no member of the cycle set `S` is
ever queued, completed or started. -/
structure SchedInvC (S : Finset Nat) (st : SchedState) : Prop where
  ncomp : ∀ i ∈ S, i ∉ st.completed
  nqueue : ∀ i ∈ S, i ∉ st.queue
  ntrace : ∀ i ∈ S, i ∉ st.trace.map StartEvent.id

/-- The example graph of the spec's scenario, tasks listed in
ascending id order. -/
def sampleTasksAsc : List (Nat × List Nat) := [(1, []), (2, [1]), (3, [1])]

/-- The same graph with tasks 2 and 3 listed in the opposite order. -/
def sampleTasksPerm : List (Nat × List Nat) := [(1, []), (3, [1]), (2, [1])]

/-- A run configuration on the ascending-order example in which every
task succeeds. -/
def sampleCfg : SchedConfig :=
  ⟨sampleTasksAsc, fun _ => StepResult.success, fun _ => fun _ => none⟩

/-- The permuted-order configuration. -/
def sampleCfgPerm : SchedConfig :=
  ⟨sampleTasksPerm, fun _ => StepResult.success, fun _ => fun _ => none⟩

/-- A two-task dependency cycle. -/
def cycleTasks : List (Nat × List Nat) := [(1, [2]), (2, [1])]

/-- A run configuration on the two-task cycle in which every task
would succeed if started. -/
def cycleCfg : SchedConfig :=
  ⟨cycleTasks, fun _ => StepResult.success, fun _ => fun _ => none⟩

/-- Specification-side reference build (for comparison with
`buildProjectStructure`): writes every listed file verbatim, with no
content sanitization. -/
def rawBuild (files : List FileInfo) : PTree :=
  files.foldl
    (fun tree fi =>
      match fi.path with
      | none => tree
      | some p => if p = "" then tree else Function.update tree p (some (fi.content.getD "")))
    (fun _ => none)

/-! # Supporting lemmas -/

theorem intercalate_pair (sep x y : List Char) (t : List (List Char)) :
    List.intercalate sep (x :: y :: t) = x ++ sep ++ List.intercalate sep (y :: t) := by
  simp [List.intercalate, List.intersperse]

theorem intercalate_cons_char (sep : List Char) (c : Char) (l : List Char)
    (ls : List (List Char)) :
    List.intercalate sep ((c :: l) :: ls) = c :: List.intercalate sep (l :: ls) := by
  cases ls with
  | nil => simp [List.intercalate]
  | cons y t => rw [intercalate_pair, intercalate_pair]; simp

theorem splitLinesCore_eq_nil {s : List Char} :
    splitLinesCore s = [] ↔ s = [] := by
  constructor
  · intro h
    cases s with
    | nil => rfl
    | cons c rest =>
      by_cases hc : c = '\n'
      · simp [splitLinesCore, hc] at h
      · simp only [splitLinesCore, if_neg hc] at h
        rcases hr : splitLinesCore rest with _ | ⟨l, ls⟩ <;> simp [hr] at h
  · intro h; subst h; rfl

theorem splitLinesCore_cons_newline (rest : List Char) :
    splitLinesCore ('\n' :: rest) = [] :: splitLinesCore rest := by
  simp [splitLinesCore]

theorem splitLinesCore_cons_of_ne {c : Char} (rest : List Char) (hc : c ≠ '\n')
    {x : List Char} {xs : List (List Char)}
    (hr : splitLinesCore rest = x :: xs) :
    splitLinesCore (c :: rest) = (c :: x) :: xs := by
  simp [splitLinesCore, hc, hr]

theorem splitLinesCore_cons_of_ne_nil {c : Char} (rest : List Char) (hc : c ≠ '\n')
    (hr : splitLinesCore rest = []) :
    splitLinesCore (c :: rest) = [[c]] := by
  simp [splitLinesCore, hc, hr]

theorem splitLinesCore_no_newline : ∀ (s : List Char), ∀ l ∈ splitLinesCore s, '\n' ∉ l := by
  intro s
  induction s with
  | nil => intro l hl; simp [splitLinesCore] at hl
  | cons c rest ih =>
    intro l hl
    by_cases hc : c = '\n'
    · subst hc
      rw [splitLinesCore_cons_newline] at hl
      rcases List.mem_cons.mp hl with h | h
      · subst h; simp
      · exact ih l h
    · rcases hr : splitLinesCore rest with _ | ⟨x, xs⟩
      · rw [splitLinesCore_cons_of_ne_nil rest hc hr] at hl
        have hle : l = [c] := by simpa using hl
        subst hle
        simp only [List.mem_singleton]
        exact fun h => hc h.symm
      · rw [splitLinesCore_cons_of_ne rest hc hr] at hl
        rcases List.mem_cons.mp hl with h | h
        · subst h
          intro hmem
          rcases List.mem_cons.mp hmem with h2 | h2
          · exact hc h2.symm
          · exact ih x (hr ▸ List.mem_cons_self x xs) h2
        · exact ih l (hr ▸ List.mem_cons_of_mem x h)

theorem splitLinesCore_append_newline {l : List Char} (t : List Char)
    (hl : '\n' ∉ l) :
    splitLinesCore (l ++ '\n' :: t) = l :: splitLinesCore t := by
  induction l with
  | nil => simp [splitLinesCore]
  | cons c cs ih =>
    have hc : c ≠ '\n' := fun h => hl (h ▸ List.mem_cons_self c cs)
    have hcs : '\n' ∉ cs := fun h => hl (List.mem_cons_of_mem c h)
    have h2 := ih hcs
    rw [List.cons_append]
    rcases hsp : splitLinesCore (cs ++ '\n' :: t) with _ | ⟨x, xs⟩
    · rw [h2] at hsp; exact absurd hsp (by simp)
    · rw [splitLinesCore_cons_of_ne _ hc hsp]
      obtain ⟨hx, hxs⟩ := List.cons_eq_cons.mp (hsp.symm.trans h2)
      rw [hx, hxs]

theorem splitLinesCore_of_no_newline {l : List Char} (hne : l ≠ [])
    (hl : '\n' ∉ l) : splitLinesCore l = [l] := by
  induction l with
  | nil => exact absurd rfl hne
  | cons c cs ih =>
    have hc : c ≠ '\n' := fun h => hl (h ▸ List.mem_cons_self c cs)
    have hcs : '\n' ∉ cs := fun h => hl (List.mem_cons_of_mem c h)
    cases hcse : cs with
    | nil =>
      subst hcse
      exact splitLinesCore_cons_of_ne_nil [] hc rfl
    | cons d ds =>
      rw [← hcse]
      have hrec : splitLinesCore cs = [cs] := ih (by simp [hcse]) hcs
      rw [splitLinesCore_cons_of_ne cs hc hrec]

/-- Round trip one way: joining newline-free nonempty lines and
splitting again restores the lines. -/
theorem splitLinesCore_intercalate {ls : List (List Char)}
    (h : ∀ l ∈ ls, '\n' ∉ l ∧ l ≠ []) :
    splitLinesCore (List.intercalate ['\n'] ls) = ls := by
  induction ls with
  | nil => rfl
  | cons l rest ih =>
    cases rest with
    | nil =>
      have hl := h l (List.mem_cons_self l [])
      simpa [List.intercalate] using splitLinesCore_of_no_newline hl.2 hl.1
    | cons m t =>
      have hl := h l (List.mem_cons_self l (m :: t))
      rw [intercalate_pair]
      rw [List.append_assoc, List.singleton_append]
      rw [splitLinesCore_append_newline _ hl.1]
      rw [ih (fun x hx => h x (List.mem_cons_of_mem l hx))]

/-- Round trip the other way: splitting and rejoining restores any
character list that does not end in a line feed. -/
theorem intercalate_splitLinesCore {s : List Char}
    (h : s.getLast? ≠ some '\n') :
    List.intercalate ['\n'] (splitLinesCore s) = s := by
  induction s with
  | nil => rfl
  | cons c rest ih =>
    by_cases hc : c = '\n'
    · subst hc
      cases rest with
      | nil => simp at h
      | cons d ds =>
        have hrest : (d :: ds).getLast? ≠ some '\n' := by
          rwa [List.getLast?_cons_cons] at h
        have hne : splitLinesCore (d :: ds) ≠ [] := by
          rw [Ne, splitLinesCore_eq_nil]; simp
        rw [splitLinesCore_cons_newline]
        rcases hsp : splitLinesCore (d :: ds) with _ | ⟨x, xs⟩
        · exact absurd hsp hne
        · rw [intercalate_pair]
          have hx : List.intercalate ['\n'] (x :: xs) = d :: ds := by
            rw [← hsp]; exact ih hrest
          rw [hx]
          simp
    · cases hrest : rest with
      | nil =>
        subst hrest
        rw [splitLinesCore_cons_of_ne_nil [] hc rfl]
        simp [List.intercalate]
      | cons d ds =>
        have hr2 : rest.getLast? ≠ some '\n' := by
          rw [hrest]
          rw [hrest] at h
          rwa [List.getLast?_cons_cons] at h
        rw [← hrest]
        have hrne : rest ≠ [] := by simp [hrest]
        have hne : splitLinesCore rest ≠ [] := by
          rw [Ne, splitLinesCore_eq_nil]; exact hrne
        rcases hsp : splitLinesCore rest with _ | ⟨x, xs⟩
        · exact absurd hsp hne
        · rw [splitLinesCore_cons_of_ne rest hc hsp, intercalate_cons_char,
            ← hsp, ih hr2]

/-- The string-level statement of `intercalate_splitLinesCore`. -/
theorem joinLines_pySplitlines {content : String}
    (h : content.data.getLast? ≠ some '\n') :
    joinLines (pySplitlines content) = content := by
  have hmap : (pySplitlines content).map String.data = splitLinesCore content.data := by
    rw [pySplitlines, List.map_map]
    rw [show (String.data ∘ fun l => (⟨l⟩ : String)) = id from rfl, List.map_id]
  rw [joinLines, hmap, intercalate_splitLinesCore h]

/-- The string-level statement of `splitLinesCore_intercalate`. -/
theorem pySplitlines_joinLines {ls : List String}
    (h : ∀ l ∈ ls, '\n' ∉ l.data ∧ l ≠ "") :
    pySplitlines (joinLines ls) = ls := by
  rw [joinLines, pySplitlines]
  rw [show (⟨List.intercalate ['\n'] (ls.map String.data)⟩ : String).data
      = List.intercalate ['\n'] (ls.map String.data) from rfl]
  rw [splitLinesCore_intercalate]
  · rw [List.map_map]
    rw [show ((fun l => (⟨l⟩ : String)) ∘ String.data) = id from rfl, List.map_id]
  · intro l hl
    obtain ⟨m, hm, hml⟩ := List.mem_map.mp hl
    obtain ⟨h1, h2⟩ := h m hm
    subst hml
    refine ⟨h1, fun hnil => h2 ?_⟩
    cases m
    simp_all

theorem insertDesc_perm (d : LineDiff) (l : List LineDiff) :
    (insertDesc d l).Perm (d :: l) := by
  induction l with
  | nil => simp [insertDesc]
  | cons e es ih =>
    by_cases hc : d.sortKey ≤ e.sortKey
    · simp only [insertDesc, if_pos hc]
      exact (ih.cons e).trans (List.Perm.swap d e es)
    · simp [insertDesc, if_neg hc]

theorem foldl_insertDesc_perm (l : List LineDiff) :
    ∀ acc : List LineDiff,
      (l.foldl (fun a x => insertDesc x a) acc).Perm (acc ++ l) := by
  induction l with
  | nil => intro acc; simp
  | cons d rest ih =>
    intro acc
    have h1 := ih (insertDesc d acc)
    have h2 : (insertDesc d acc ++ rest).Perm (acc ++ d :: rest) := by
      have := (insertDesc_perm d acc).append_right rest
      exact this.trans (List.perm_middle.symm)
    exact (List.foldl_cons _ _ ▸ h1).trans h2

theorem pySortDesc_perm (l : List LineDiff) : (pySortDesc l).Perm l := by
  simpa using foldl_insertDesc_perm l []

theorem insertDesc_of_head_lt {d : LineDiff} {acc : List LineDiff}
    (h : ∀ e ∈ acc.head?, e.sortKey < d.sortKey) :
    insertDesc d acc = d :: acc := by
  cases acc with
  | nil => rfl
  | cons e es =>
    have he : e.sortKey < d.sortKey := h e rfl
    simp [insertDesc, not_le.mpr he]

theorem foldl_insertDesc_of_ascending :
    ∀ (l acc : List LineDiff),
      List.Pairwise (fun a b => a.sortKey < b.sortKey) l →
      (∀ a ∈ acc, ∀ x ∈ l, a.sortKey < x.sortKey) →
      l.foldl (fun a x => insertDesc x a) acc = l.reverse ++ acc := by
  intro l
  induction l with
  | nil => intro acc _ _; simp
  | cons d rest ih =>
    intro acc hp hacc
    have hhead : ∀ e ∈ acc.head?, e.sortKey < d.sortKey := by
      intro e he
      exact hacc e (List.mem_of_mem_head? he) d (List.mem_cons_self d rest)
    rw [List.foldl_cons, insertDesc_of_head_lt hhead]
    rw [ih (d :: acc) (List.pairwise_cons.mp hp).2 ?_]
    · simp
    · intro a ha x hx
      rcases List.mem_cons.mp ha with h | h
      · subst h; exact (List.pairwise_cons.mp hp).1 x hx
      · exact hacc a h x (List.mem_cons_of_mem d hx)

theorem pySortDesc_of_ascending {diffs : List LineDiff}
    (h : List.Pairwise (fun a b => a.sortKey < b.sortKey) diffs) :
    pySortDesc diffs = diffs.reverse := by
  rw [pySortDesc, foldl_insertDesc_of_ascending diffs [] h (by simp)]
  simp

theorem applyOneDiff_mem {lines : List String} {d : LineDiff} {l : String}
    (hl : l ∈ applyOneDiff lines d) :
    l ∈ lines ∨ l ∈ pySplitlines (d.newContent.getD "") := by
  rw [applyOneDiff] at hl
  by_cases hs : diffSkipped lines.length d
  · rw [if_pos hs] at hl; exact Or.inl hl
  · rw [if_neg hs] at hl
    rcases List.mem_append.mp hl with h | h
    · rcases List.mem_append.mp h with h | h
      · exact Or.inl (List.mem_of_mem_take h)
      · exact Or.inr h
    · exact Or.inl (List.mem_of_mem_drop h)

theorem pySplitlines_no_newline {s : String} {l : String}
    (hl : l ∈ pySplitlines s) : '\n' ∉ l.data := by
  obtain ⟨m, hm, hml⟩ := List.mem_map.mp hl
  subst hml
  exact splitLinesCore_no_newline s.data m hm

theorem pySortDesc_single (d : LineDiff) : pySortDesc [d] = [d] := rfl

/-- One builder call on a single diff, expressed on the line list of
the current content. -/
theorem applyLineDiffs_single_of_lines {L : List String} {d : LineDiff}
    (hL : ∀ l ∈ L, '\n' ∉ l.data ∧ l ≠ "") :
    applyLineDiffs (some (joinLines L)) [d] = joinLines (applyOneDiff L d) := by
  rw [applyLineDiffs, pySortDesc_single, pySplitlines_joinLines hL]
  rfl

/-- Iterating the builder one diff at a time, starting from joined
lines, computes the fold of `applyOneDiff` over the line list,
provided no line (of the file or of any replacement) is empty. -/
theorem foldl_single_applyLineDiffs :
    ∀ (ds : List LineDiff) (L : List String),
      (∀ l ∈ L, '\n' ∉ l.data ∧ l ≠ "") →
      (∀ d ∈ ds, ∀ l ∈ pySplitlines (d.newContent.getD ""), l ≠ "") →
      ds.foldl (fun c d => applyLineDiffs (some c) [d]) (joinLines L)
        = joinLines (ds.foldl applyOneDiff L) := by
  intro ds
  induction ds with
  | nil => intro L _ _; rfl
  | cons d rest ih =>
    intro L hL hN
    have hstep := applyLineDiffs_single_of_lines (d := d) hL
    rw [List.foldl_cons, hstep, List.foldl_cons]
    apply ih
    · intro l hl
      rcases applyOneDiff_mem hl with h | h
      · exact hL l h
      · exact ⟨pySplitlines_no_newline h,
          hN d (List.mem_cons_self d rest) l h⟩
    · intro e he l hl
      exact hN e (List.mem_cons_of_mem d he) l hl

theorem sortKey_le_diffStart_add_one (d : LineDiff) :
    d.sortKey ≤ diffStart d + 1 := by
  rcases hs : d.startLine with _ | s <;>
    simp [LineDiff.sortKey, diffStart, hs]

theorem sortKey_lt_of_ranges {a b : LineDiff}
    (hab : diffStop a ≤ diffStart b)
    (ha : 0 ≤ diffStart a ∧ diffStart a < diffStop a) :
    a.sortKey < b.sortKey := by
  have h1 : (1 : Int) ≤ diffStart b := by
    have := ha.1
    have := ha.2
    omega
  rcases hb : b.startLine with _ | s
  · exfalso
    have : diffStart b = 0 := by simp [diffStart, hb]
    omega
  · have hkb : b.sortKey = s := by simp [LineDiff.sortKey, hb]
    have hsb : diffStart b = s - 1 := by simp [diffStart, hb]
    have hka := sortKey_le_diffStart_add_one a
    have := ha.2
    omega

theorem applyOneDiff_of_skipped {lines : List String} {d : LineDiff}
    (h : diffSkipped lines.length d) : applyOneDiff lines d = lines := by
  simp [applyOneDiff, if_pos h]

theorem foldl_applyOneDiff_skipped {ds : List LineDiff} {L : List String}
    (h : ∀ d ∈ ds, diffSkipped L.length d) :
    ds.foldl applyOneDiff L = L := by
  induction ds with
  | nil => rfl
  | cons d rest ih =>
    have h1 : applyOneDiff L d = L :=
      applyOneDiff_of_skipped (h d (List.mem_cons_self d rest))
    rw [List.foldl_cons, h1]
    exact ih (fun e he => h e (List.mem_cons_of_mem d he))

theorem processDeps_deg (ds : List Nat) :
    ∀ (f : Nat → Int) (j : Nat),
      (processDeps f ds).1 j = f j - (ds.count j : Int) := by
  induction ds with
  | nil => intro f j; simp [processDeps]
  | cons d rest ih =>
    intro f j
    rw [processDeps]
    rw [ih (Function.update f d (f d - 1)) j]
    by_cases hj : j = d
    · subst hj
      rw [Function.update_same, List.count_cons_self]
      push_cast
      omega
    · rw [Function.update_noteq hj, List.count_cons_of_ne hj]

theorem processDeps_mem (ds : List Nat) :
    ∀ (f : Nat → Int) (j : Nat),
      j ∈ (processDeps f ds).2 ↔ 1 ≤ f j ∧ f j ≤ (ds.count j : Int) := by
  induction ds with
  | nil =>
    intro f j
    simp only [processDeps, List.not_mem_nil, List.count_nil, false_iff]
    omega
  | cons d rest ih =>
    intro f j
    rw [processDeps]
    simp only [List.mem_append]
    rw [ih (Function.update f d (f d - 1)) j]
    by_cases hj : j = d
    · subst hj
      rw [Function.update_same, List.count_cons_self]
      constructor
      · intro h
        rcases h with h | h
        · have : f j - 1 = 0 := by
            by_cases hz : f j - 1 = 0
            · exact hz
            · simp [hz] at h
          push_cast
          omega
        · push_cast at h ⊢
          omega
      · intro h
        by_cases hz : f j = 1
        · exact Or.inl (by simp [hz])
        · refine Or.inr ?_
          push_cast at h ⊢
          omega
    · rw [Function.update_noteq hj, List.count_cons_of_ne hj]
      constructor
      · intro h
        rcases h with h | h
        · by_cases hz : f d - 1 = 0
          · simp [hz] at h; exact absurd h hj
          · simp [hz] at h
        · exact h
      · exact fun h => Or.inr h

theorem processDeps_nodup (ds : List Nat) :
    ∀ f : Nat → Int, (processDeps f ds).2.Nodup := by
  induction ds with
  | nil => intro f; simp [processDeps]
  | cons d rest ih =>
    intro f
    rw [processDeps]
    by_cases hz : f d - 1 = 0
    · rw [if_pos hz, List.singleton_append]
      refine List.Nodup.cons ?_ (ih _)
      rw [processDeps_mem]
      rw [Function.update_same]
      omega
    · rw [if_neg hz, List.nil_append]
      exact ih _

theorem sumInDeg_update {ids : List Nat} (hnodup : ids.Nodup) {d : Nat}
    (hd : d ∈ ids) (f : Nat → Int) (v : Int) :
    sumInDeg ids (Function.update f d v) + (f d).toNat
      = sumInDeg ids f + v.toNat := by
  induction ids with
  | nil => simp at hd
  | cons i rest ih =>
    rw [List.nodup_cons] at hnodup
    rcases List.mem_cons.mp hd with h | h
    · subst h
      have hrest : ∀ j ∈ rest, Function.update f d v j = f j := by
        intro j hj
        refine Function.update_noteq ?_ v f
        intro he
        rw [he] at hj
        exact hnodup.1 hj
      simp only [sumInDeg, List.map_cons, List.sum_cons, Function.update_same]
      rw [List.map_congr_left (fun j hj => by rw [hrest j hj])]
      omega
    · have hdi : i ≠ d := by
        intro he
        rw [he] at hnodup
        exact hnodup.1 h
      simp only [sumInDeg, List.map_cons, List.sum_cons,
        Function.update_noteq hdi]
      have := ih hnodup.2 h
      simp only [sumInDeg] at this
      omega

theorem processDeps_measure {ids : List Nat} (hnodup : ids.Nodup) :
    ∀ (ds : List Nat) (f : Nat → Int), (∀ j ∈ ds, j ∈ ids) →
      (processDeps f ds).2.length + sumInDeg ids (processDeps f ds).1
        ≤ sumInDeg ids f := by
  intro ds
  induction ds with
  | nil => intro f _; simp [processDeps]
  | cons d rest ih =>
    intro f hsub
    rw [processDeps]
    dsimp only
    have hd : d ∈ ids := hsub d (List.mem_cons_self d rest)
    have hupd := sumInDeg_update hnodup hd f (f d - 1)
    have hrec := ih (Function.update f d (f d - 1))
      (fun j hj => hsub j (List.mem_cons_of_mem d hj))
    by_cases hz : f d - 1 = 0
    · rw [if_pos hz, List.singleton_append, List.length_cons]
      have h1 : (f d).toNat = (f d - 1).toNat + 1 := by omega
      omega
    · rw [if_neg hz, List.nil_append]
      have h1 : (f d - 1).toNat ≤ (f d).toNat := by omega
      omega

theorem adjOf_sub {tasks : List (Nat × List Nat)} {i j : Nat}
    (hj : j ∈ adjOf tasks i) : j ∈ taskIds tasks := by
  rw [adjOf] at hj
  rw [List.mem_flatten] at hj
  obtain ⟨part, hpart, hjp⟩ := hj
  obtain ⟨p, hp, hpe⟩ := List.mem_map.mp hpart
  subst hpe
  obtain ⟨d, _, hd⟩ := List.mem_filterMap.mp hjp
  have : j = p.1 := by
    by_cases hdi : d == i
    · rw [if_pos hdi] at hd; exact (Option.some_inj.mp hd).symm
    · rw [if_neg hdi] at hd; exact absurd hd (by simp)
  subst this
  exact List.mem_map.mpr ⟨p, hp, rfl⟩

theorem count_filterMap_if (l : List Nat) (i c : Nat) :
    (l.filterMap (fun d => if d == i then some c else none)).length
      = l.count i := by
  induction l with
  | nil => rfl
  | cons a rest ih =>
    rw [List.filterMap_cons]
    by_cases ha : a = i
    · subst ha
      rw [if_pos (by simp), List.length_cons, ih, List.count_cons_self]
    · rw [if_neg (by simp [ha]), ih, List.count_cons_of_ne (Ne.symm ha)]

theorem mem_filterMap_if {l : List Nat} {i c j : Nat}
    (hj : j ∈ l.filterMap (fun d => if d == i then some c else none)) :
    j = c := by
  obtain ⟨d, _, hd⟩ := List.mem_filterMap.mp hj
  by_cases hdi : d == i
  · rw [if_pos hdi] at hd; exact (Option.some_inj.mp hd).symm
  · rw [if_neg hdi] at hd; exact absurd hd (by simp)

theorem count_eq_zero_of_not_mem_ids {tasks : List (Nat × List Nat)} {i j : Nat}
    (hj : j ∈ taskIds tasks → False) : (adjOf tasks i).count j = 0 := by
  rw [List.count_eq_zero]
  exact fun hmem => hj (adjOf_sub hmem)

theorem adjOf_count {tasks : List (Nat × List Nat)}
    (hnodup : (taskIds tasks).Nodup) (i j : Nat) :
    (adjOf tasks i).count j = (depsOf tasks j).count i := by
  induction tasks with
  | nil => simp [adjOf, depsOf]
  | cons p rest ih =>
    have hsplit : adjOf (p :: rest) i
        = p.2.filterMap (fun d => if d == i then some p.1 else none)
          ++ adjOf rest i := by
      simp [adjOf]
    rw [hsplit, List.count_append]
    have hnd : (taskIds rest).Nodup ∧ p.1 ∉ taskIds rest := by
      have := hnodup
      rw [taskIds, List.map_cons, List.nodup_cons] at this
      exact ⟨this.2, this.1⟩
    by_cases hpj : p.1 = j
    · subst hpj
      have hdeps : depsOf (p :: rest) p.1 = p.2 := by
        rw [depsOf, List.find?_cons]
        simp
      have hc1 : (p.2.filterMap (fun d => if d == i then some p.1 else none)).count p.1
          = p.2.count i := by
        rw [List.count_eq_length.mpr (fun b hb => (mem_filterMap_if hb).symm)]
        exact count_filterMap_if p.2 i p.1
      have hc2 : (adjOf rest i).count p.1 = 0 :=
        count_eq_zero_of_not_mem_ids (fun hmem => hnd.2 hmem)
      rw [hdeps, hc1, hc2]
      omega
    · have hdeps : depsOf (p :: rest) j = depsOf rest j := by
        rw [depsOf, List.find?_cons]
        have hbeq : (p.1 == j) = false := beq_false_of_ne hpj
        rw [hbeq]
        rfl
      have hc1 : (p.2.filterMap (fun d => if d == i then some p.1 else none)).count j
          = 0 := by
        rw [List.count_eq_zero]
        exact fun hmem => hpj (mem_filterMap_if hmem).symm
      rw [hdeps, hc1, ih hnd.1, Nat.zero_add]

theorem initialGenLoop_all_invalid (gen : Nat → GenResponse)
    (buildOk : Nat → Bool) (verify : Nat → StepResult × Option String)
    (h : ∀ k, (validateInitialCodeResponse (gen k)).1 = false) :
    ∀ (remaining a : Nat) (trace : List AttemptRecord),
      initialGenLoop gen buildOk verify a remaining
          ((List.range a).map (shapeMsg gen)) trace
        = ((StepResult.aborted, none),
            trace ++ (List.range remaining).map (fun i =>
              ⟨a + i + 1,
                feedbackSectionOf ((List.range (a + i)).map (shapeMsg gen)),
                true, false⟩)) := by
  intro remaining
  induction remaining with
  | zero => intro a trace; simp [initialGenLoop]
  | succ rem ih =>
    intro a trace
    have hv : (validateInitialCodeResponse (gen (a + 1))).1 = false := h (a + 1)
    rw [initialGenLoop]
    rw [if_pos (by rw [hv]; rfl)]
    have hfb : (List.range a).map (shapeMsg gen)
        ++ [shapeErrorFeedback (validateInitialCodeResponse (gen (a + 1))).2]
        = (List.range (a + 1)).map (shapeMsg gen) := by
      rw [List.range_succ, List.map_append]
      rfl
    rw [hfb]
    rw [ih (a + 1)]
    refine congrArg (Prod.mk (StepResult.aborted, none)) ?_
    rw [List.append_assoc, List.singleton_append, List.range_succ_eq_map,
      List.map_cons, List.map_map]
    have hhead :
        (⟨a + 1, feedbackSectionOf ((List.range a).map (shapeMsg gen)), true, false⟩
          : AttemptRecord)
        = ⟨a + 0 + 1, feedbackSectionOf ((List.range (a + 0)).map (shapeMsg gen)),
            true, false⟩ := by
      simp
    have htail :
        (List.range rem).map (fun i =>
          (⟨a + 1 + i + 1,
            feedbackSectionOf ((List.range (a + 1 + i)).map (shapeMsg gen)),
            true, false⟩ : AttemptRecord))
        = (List.range rem).map ((fun i =>
            (⟨a + i + 1,
              feedbackSectionOf ((List.range (a + i)).map (shapeMsg gen)),
              true, false⟩ : AttemptRecord)) ∘ Nat.succ) := by
      apply List.map_congr_left
      intro i _
      simp only [Function.comp_apply]
      have h1 : a + 1 + i = a + i.succ := by omega
      rw [h1]
    rw [hhead, htail]

theorem countP_append_singleton {l completed : List Nat} {i : Nat}
    (hi : i ∉ completed) :
    l.countP (fun d => decide (d ∉ completed ++ [i])) + l.count i
      = l.countP (fun d => decide (d ∉ completed)) := by
  induction l with
  | nil => simp
  | cons a rest ih =>
    rw [List.countP_cons, List.countP_cons, List.count_cons]
    by_cases hai : a = i
    · subst hai
      have h1 : (decide (a ∉ completed ++ [a])) = false := by simp
      have h2 : (decide (a ∉ completed)) = true := by simpa using hi
      rw [h1, h2]
      simp only [beq_self_eq_true, if_true, Bool.false_eq_true, if_false]
      omega
    · have h1 : (decide (a ∉ completed ++ [i])) = decide (a ∉ completed) := by
        simp [List.mem_append, hai]
      have h2 : (a == i) = false := beq_false_of_ne hai
      rw [h1, h2]
      simp only [Bool.false_eq_true, if_false]
      omega

theorem count_le_countP_not_completed {l completed : List Nat} {i : Nat}
    (hi : i ∉ completed) :
    l.count i ≤ l.countP (fun d => decide (d ∉ completed)) := by
  rw [List.count]
  refine List.countP_mono_left ?_
  intro a _ ha
  have : a = i := by simpa using ha
  subst this
  simpa using hi

theorem depsOf_sub_of_danglingFree {tasks : List (Nat × List Nat)}
    (hnd : danglingFree tasks = true) :
    ∀ i, ∀ d ∈ depsOf tasks i, d ∈ taskIds tasks := by
  intro i d hd
  rw [depsOf] at hd
  cases hfind : tasks.find? (fun p => p.1 == i) with
  | none => rw [hfind] at hd; simp at hd
  | some p =>
    rw [hfind] at hd
    have hd2 : d ∈ p.2 := hd
    have hp : p ∈ tasks := List.mem_of_find?_eq_some hfind
    rw [danglingFree, List.all_eq_true] at hnd
    have h1 := hnd p hp
    rw [List.all_eq_true] at h1
    have h2 := h1 d hd2
    simpa using h2

theorem find?_self_of_nodup {tasks : List (Nat × List Nat)}
    (hnodup : (taskIds tasks).Nodup) :
    ∀ p ∈ tasks, tasks.find? (fun q => q.1 == p.1) = some p := by
  induction tasks with
  | nil => intro p hp; simp at hp
  | cons a rest ih =>
    intro p hp
    have hnd : (taskIds rest).Nodup ∧ a.1 ∉ taskIds rest := by
      have := hnodup
      rw [taskIds, List.map_cons, List.nodup_cons] at this
      exact ⟨this.2, this.1⟩
    rcases List.mem_cons.mp hp with h | h
    · subst h
      rw [List.find?_cons]
      simp
    · have hne : (a.1 == p.1) = false := by
        refine beq_false_of_ne ?_
        intro he
        exact hnd.2 (he ▸ List.mem_map.mpr ⟨p, h, rfl⟩)
      rw [List.find?_cons, hne]
      exact ih hnd.1 p h

theorem depsOf_mem_of_nodup {tasks : List (Nat × List Nat)}
    (hnodup : (taskIds tasks).Nodup) {p : Nat × List Nat} (hp : p ∈ tasks) :
    depsOf tasks p.1 = p.2 := by
  rw [depsOf, find?_self_of_nodup hnodup p hp]
  rfl

theorem schedInv_init (cfg : SchedConfig)
    (hnodup : (taskIds cfg.tasks).Nodup) : SchedInv cfg (initState cfg) := by
  refine ⟨?_, ?_, ?_, ?_, ?_, ?_, ?_, ?_, ?_, ?_, ?_, ?_, ?_, ?_, ?_, ?_⟩
  · intro i _
    rw [initState]
    dsimp only
    rw [initInDeg]
    have : (depsOf cfg.tasks i).countP (fun d => decide (d ∉ ([] : List Nat)))
        = (depsOf cfg.tasks i).length := by
      rw [List.countP_eq_length]
      intro a _
      simp
    rw [this]
  · exact List.nodup_nil
  · intro i hi; simp [initState] at hi
  · exact List.Nodup.filter _ hnodup
  · intro i hi
    exact (List.mem_filter.mp hi).1
  · intro i hi
    have h2 := (List.mem_filter.mp hi).2
    rw [initState]
    dsimp only
    simpa using h2
  · intro i hi; simp [initState] at hi
  · intro i _; simp [initState]
  · simp [initState]
  · intro i hi; simp [initState] at hi
  · intro i hi; simp [initState] at hi
  · intro i _; simp [initState]
  · intro i hi; simp [initState] at hi
  · intro ev hev; simp [initState] at hev
  · intro ev hev; simp [initState] at hev
  · intro d hd; simp [initState] at hd

theorem schedInvS_init (cfg : SchedConfig) : SchedInvS cfg (initState cfg) := by
  refine ⟨rfl, ?_⟩
  intro i hi hdeg
  refine Or.inl ?_
  rw [initState]
  dsimp only
  rw [initQueue]
  refine List.mem_filter.mpr ⟨hi, ?_⟩
  rw [initState] at hdeg
  dsimp only at hdeg
  simpa using hdeg

theorem succ_inDeg_eq {cfg : SchedConfig} {st : SchedState} {i : Nat}
    (hnodup : (taskIds cfg.tasks).Nodup) (hInv : SchedInv cfg st)
    (hiq : i ∈ st.queue) :
    ∀ j ∈ taskIds cfg.tasks,
      (processDeps st.inDeg (adjOf cfg.tasks i)).1 j
        = ((depsOf cfg.tasks j).countP
            (fun d => decide (d ∉ st.completed ++ [i])) : Int) := by
  intro j hj
  have hinc : i ∉ st.completed := hInv.qdisj i hiq
  rw [processDeps_deg, hInv.deg j hj, adjOf_count hnodup]
  have hstep := countP_append_singleton (l := depsOf cfg.tasks j) hinc
  omega

theorem succ_inDeg_zero {cfg : SchedConfig} {st : SchedState} {i : Nat}
    (hnodup : (taskIds cfg.tasks).Nodup) (hInv : SchedInv cfg st)
    (hiq : i ∈ st.queue) {j : Nat} (hj : j ∈ taskIds cfg.tasks)
    (hfz : st.inDeg j = 0) :
    (processDeps st.inDeg (adjOf cfg.tasks i)).1 j = 0 := by
  have hinc : i ∉ st.completed := hInv.qdisj i hiq
  have hle := count_le_countP_not_completed (l := depsOf cfg.tasks j) hinc
  have hdeg := hInv.deg j hj
  rw [processDeps_deg, adjOf_count hnodup]
  omega

theorem succ_newQ_pos {st : SchedState} {adj : List Nat} {j : Nat}
    (hj : j ∈ (processDeps st.inDeg adj).2) : 1 ≤ st.inDeg j :=
  ((processDeps_mem adj st.inDeg j).mp hj).1

theorem succ_newQ_ids {cfg : SchedConfig} {st : SchedState} {i j : Nat}
    (hj : j ∈ (processDeps st.inDeg (adjOf cfg.tasks i)).2) :
    j ∈ taskIds cfg.tasks := by
  have h := (processDeps_mem (adjOf cfg.tasks i) st.inDeg j).mp hj
  have hcount : 0 < (adjOf cfg.tasks i).count j := by omega
  exact adjOf_sub (List.count_pos_iff.mp hcount)

theorem succ_newQ_zero {cfg : SchedConfig} {st : SchedState} {i : Nat}
    (hnodup : (taskIds cfg.tasks).Nodup) (hInv : SchedInv cfg st)
    (hiq : i ∈ st.queue) {j : Nat}
    (hj : j ∈ (processDeps st.inDeg (adjOf cfg.tasks i)).2) :
    (processDeps st.inDeg (adjOf cfg.tasks i)).1 j = 0 := by
  have hjid : j ∈ taskIds cfg.tasks := succ_newQ_ids hj
  have h := (processDeps_mem (adjOf cfg.tasks i) st.inDeg j).mp hj
  have hinc : i ∉ st.completed := hInv.qdisj i hiq
  have hle := count_le_countP_not_completed (l := depsOf cfg.tasks j) hinc
  have hdeg := hInv.deg j hjid
  have hc := adjOf_count hnodup i j
  rw [processDeps_deg]
  omega

theorem deps_completed_of_zero {cfg : SchedConfig} {st : SchedState} {i : Nat}
    (hInv : SchedInv cfg st) (hi : i ∈ taskIds cfg.tasks)
    (hz : st.inDeg i = 0) :
    ∀ d ∈ depsOf cfg.tasks i, d ∈ st.completed := by
  have hdeg := hInv.deg i hi
  rw [hz] at hdeg
  have hzero : (depsOf cfg.tasks i).countP (fun d => decide (d ∉ st.completed)) = 0 := by
    omega
  intro d hd
  have := List.countP_eq_zero.mp hzero d hd
  simpa using this

/-- Invariant preservation when the dequeued task fails, aborts or is
skipped: the state keeps everything except the popped queue head and
the extended trace. -/
theorem schedInv_tail_step {cfg : SchedConfig} {st : SchedState} {i : Nat}
    {rest : List Nat} (hq : st.queue = i :: rest) (hInv : SchedInv cfg st) :
    SchedInv cfg
      ⟨rest, st.inDeg, st.completed, st.store,
        st.trace ++ [⟨i, st.completed, st.store⟩]⟩ := by
  have hiq : i ∈ st.queue := by rw [hq]; exact List.mem_cons_self i rest
  have hii : i ∈ taskIds cfg.tasks := hInv.qsub i hiq
  have hiz : st.inDeg i = 0 := hInv.qzero i hiq
  have hnodupq := hInv.qnodup
  rw [hq, List.nodup_cons] at hnodupq
  refine ⟨hInv.deg, hInv.cnodup, hInv.csub, hnodupq.2, ?_, ?_, hInv.czero, ?_,
    ?_, ?_, ?_, ?_, ?_, ?_, ?_, hInv.snap⟩
  · intro j hj
    exact hInv.qsub j (by rw [hq]; exact List.mem_cons_of_mem i hj)
  · intro j hj
    exact hInv.qzero j (by rw [hq]; exact List.mem_cons_of_mem i hj)
  · intro j hj
    exact hInv.qdisj j (by rw [hq]; exact List.mem_cons_of_mem i hj)
  · dsimp only
    rw [List.map_append]
    rw [List.nodup_append]
    refine ⟨hInv.tnodup, List.nodup_singleton i, ?_⟩
    intro a ha hai
    have : a = i := by simpa using hai
    subst this
    exact hInv.tqdisj a hiq ha
  · dsimp only
    rw [List.map_append]
    intro j hj
    rcases List.mem_append.mp hj with h | h
    · exact hInv.tsub j h
    · have : j = i := by simpa using h
      subst this
      exact hii
  · dsimp only
    rw [List.map_append]
    intro j hj
    rcases List.mem_append.mp hj with h | h
    · exact hInv.tzero j h
    · have : j = i := by simpa using h
      subst this
      exact hiz
  · dsimp only
    intro j hj
    rw [List.map_append]
    intro hmem
    rcases List.mem_append.mp hmem with h | h
    · exact hInv.tqdisj j (by rw [hq]; exact List.mem_cons_of_mem i hj) h
    · have : j = i := by simpa using h
      subst this
      exact hnodupq.1 hj
  · dsimp only
    intro j hj
    rw [List.map_append]
    exact List.mem_append.mpr (Or.inl (hInv.tcomp j hj))
  · dsimp only
    intro ev hev
    rcases List.mem_append.mp hev with h | h
    · exact hInv.tdeps ev h
    · have : ev = ⟨i, st.completed, st.store⟩ := by simpa using h
      subst this
      exact deps_completed_of_zero hInv hii hiz
  · dsimp only
    intro ev hev
    rcases List.mem_append.mp hev with h | h
    · exact hInv.tsnap ev h
    · have : ev = ⟨i, st.completed, st.store⟩ := by simpa using h
      subst this
      intro d hd
      exact hInv.snap d hd

/-- Invariant preservation when the dequeued task succeeds. -/
theorem schedInv_success_step {cfg : SchedConfig} {st : SchedState} {i : Nat}
    {rest : List Nat} (hnodup : (taskIds cfg.tasks).Nodup)
    (hq : st.queue = i :: rest) (hInv : SchedInv cfg st) :
    SchedInv cfg
      ⟨rest ++ (processDeps st.inDeg (adjOf cfg.tasks i)).2,
        (processDeps st.inDeg (adjOf cfg.tasks i)).1,
        st.completed ++ [i],
        markStepAsSuccessful i (cfg.winTree i) st.store,
        st.trace ++ [⟨i, st.completed, st.store⟩]⟩ := by
  have hiq : i ∈ st.queue := by rw [hq]; exact List.mem_cons_self i rest
  have hii : i ∈ taskIds cfg.tasks := hInv.qsub i hiq
  have hiz : st.inDeg i = 0 := hInv.qzero i hiq
  have hinc : i ∉ st.completed := hInv.qdisj i hiq
  have hnodupq := hInv.qnodup
  rw [hq, List.nodup_cons] at hnodupq
  have hrsub : ∀ j ∈ rest, j ∈ st.queue := by
    intro j hj; rw [hq]; exact List.mem_cons_of_mem i hj
  refine ⟨?_, ?_, ?_, ?_, ?_, ?_, ?_, ?_, ?_, ?_, ?_, ?_, ?_, ?_, ?_, ?_⟩
  · exact succ_inDeg_eq hnodup hInv hiq
  · dsimp only
    rw [List.nodup_append]
    refine ⟨hInv.cnodup, List.nodup_singleton i, ?_⟩
    intro a ha hai
    have : a = i := by simpa using hai
    subst this
    exact hinc ha
  · dsimp only
    intro j hj
    rcases List.mem_append.mp hj with h | h
    · exact hInv.csub j h
    · have : j = i := by simpa using h
      subst this
      exact hii
  · dsimp only
    rw [List.nodup_append]
    refine ⟨hnodupq.2, processDeps_nodup _ _, ?_⟩
    intro a ha hamem
    have h0 : st.inDeg a = 0 := hInv.qzero a (hrsub a ha)
    have h1 := succ_newQ_pos hamem
    omega
  · dsimp only
    intro j hj
    rcases List.mem_append.mp hj with h | h
    · exact hInv.qsub j (hrsub j h)
    · exact succ_newQ_ids h
  · dsimp only
    intro j hj
    rcases List.mem_append.mp hj with h | h
    · exact succ_inDeg_zero hnodup hInv hiq (hInv.qsub j (hrsub j h))
        (hInv.qzero j (hrsub j h))
    · exact succ_newQ_zero hnodup hInv hiq h
  · dsimp only
    intro j hj
    rcases List.mem_append.mp hj with h | h
    · exact succ_inDeg_zero hnodup hInv hiq (hInv.csub j h) (hInv.czero j h)
    · have : j = i := by simpa using h
      subst this
      exact succ_inDeg_zero hnodup hInv hiq hii hiz
  · dsimp only
    intro j hj hmem
    rcases List.mem_append.mp hmem with hc | hc
    · rcases List.mem_append.mp hj with h | h
      · exact hInv.qdisj j (hrsub j h) hc
      · have h0 : st.inDeg j = 0 := hInv.czero j hc
        have h1 := succ_newQ_pos h
        omega
    · have hji : j = i := by simpa using hc
      subst hji
      rcases List.mem_append.mp hj with h | h
      · exact hnodupq.1 h
      · have h1 := succ_newQ_pos h
        omega
  · dsimp only
    rw [List.map_append]
    rw [List.nodup_append]
    refine ⟨hInv.tnodup, List.nodup_singleton i, ?_⟩
    intro a ha hai
    have : a = i := by simpa using hai
    subst this
    exact hInv.tqdisj a hiq ha
  · dsimp only
    rw [List.map_append]
    intro j hj
    rcases List.mem_append.mp hj with h | h
    · exact hInv.tsub j h
    · have : j = i := by simpa using h
      subst this
      exact hii
  · dsimp only
    rw [List.map_append]
    intro j hj
    rcases List.mem_append.mp hj with h | h
    · exact succ_inDeg_zero hnodup hInv hiq (hInv.tsub j h) (hInv.tzero j h)
    · have : j = i := by simpa using h
      subst this
      exact succ_inDeg_zero hnodup hInv hiq hii hiz
  · dsimp only
    intro j hj
    rw [List.map_append]
    intro hmem
    rcases List.mem_append.mp hmem with h | h
    · rcases List.mem_append.mp hj with hr | hr
      · exact hInv.tqdisj j (hrsub j hr) h
      · have h0 : st.inDeg j = 0 := hInv.tzero j h
        have h1 := succ_newQ_pos hr
        omega
    · have hji : j = i := by simpa using h
      subst hji
      rcases List.mem_append.mp hj with hr | hr
      · exact hnodupq.1 hr
      · have h1 := succ_newQ_pos hr
        omega
  · dsimp only
    intro j hj
    rw [List.map_append]
    rcases List.mem_append.mp hj with h | h
    · exact List.mem_append.mpr (Or.inl (hInv.tcomp j h))
    · refine List.mem_append.mpr (Or.inr ?_)
      simpa using h
  · dsimp only
    intro ev hev
    rcases List.mem_append.mp hev with h | h
    · exact hInv.tdeps ev h
    · have : ev = ⟨i, st.completed, st.store⟩ := by simpa using h
      subst this
      exact deps_completed_of_zero hInv hii hiz
  · dsimp only
    intro ev hev
    rcases List.mem_append.mp hev with h | h
    · exact hInv.tsnap ev h
    · have : ev = ⟨i, st.completed, st.store⟩ := by simpa using h
      subst this
      intro d hd
      exact hInv.snap d hd
  · dsimp only
    intro d hd
    rw [markStepAsSuccessful]
    dsimp only
    rcases List.mem_append.mp hd with h | h
    · have hdi : d ≠ i := fun he => hinc (he ▸ h)
      rw [Function.update_noteq hdi]
      exact hInv.snap d h
    · have : d = i := by simpa using h
      subst this
      rw [Function.update_same]

/-- Preservation of the all-success invariant. -/
theorem schedInvS_success_step {cfg : SchedConfig} {st : SchedState} {i : Nat}
    {rest : List Nat} (hnodup : (taskIds cfg.tasks).Nodup)
    (hq : st.queue = i :: rest) (hInv : SchedInv cfg st)
    (hS : SchedInvS cfg st) :
    SchedInvS cfg
      ⟨rest ++ (processDeps st.inDeg (adjOf cfg.tasks i)).2,
        (processDeps st.inDeg (adjOf cfg.tasks i)).1,
        st.completed ++ [i],
        markStepAsSuccessful i (cfg.winTree i) st.store,
        st.trace ++ [⟨i, st.completed, st.store⟩]⟩ := by
  have hiq : i ∈ st.queue := by rw [hq]; exact List.mem_cons_self i rest
  have hinc : i ∉ st.completed := hInv.qdisj i hiq
  constructor
  · dsimp only
    rw [List.map_append, hS.teq]
    rfl
  · dsimp only
    intro j hj hz
    by_cases hf : st.inDeg j = 0
    · rcases hS.ready j hj hf with h | h
      · rw [hq] at h
        rcases List.mem_cons.mp h with h | h
        · subst h
          exact Or.inr (List.mem_append.mpr (Or.inr (List.mem_singleton.mpr rfl)))
        · exact Or.inl (List.mem_append.mpr (Or.inl h))
      · exact Or.inr (List.mem_append.mpr (Or.inl h))
    · refine Or.inl (List.mem_append.mpr (Or.inr ?_))
      rw [processDeps_mem]
      have hdeg := hInv.deg j hj
      have hpd := processDeps_deg (adjOf cfg.tasks i) st.inDeg j
      omega

/-- Preservation of the cycle-avoidance invariant over one successful
step. -/
theorem schedInvC_success_step {cfg : SchedConfig} {st : SchedState} {i : Nat}
    {rest : List Nat} {S : Finset Nat}
    (hnodup : (taskIds cfg.tasks).Nodup)
    (hq : st.queue = i :: rest) (hInv : SchedInv cfg st)
    (hSsub : ∀ s ∈ S, s ∈ taskIds cfg.tasks)
    (hScyc : ∀ s ∈ S, ∃ d ∈ depsOf cfg.tasks s, d ∈ S)
    (hC : SchedInvC S st) :
    SchedInvC S
      ⟨rest ++ (processDeps st.inDeg (adjOf cfg.tasks i)).2,
        (processDeps st.inDeg (adjOf cfg.tasks i)).1,
        st.completed ++ [i],
        markStepAsSuccessful i (cfg.winTree i) st.store,
        st.trace ++ [⟨i, st.completed, st.store⟩]⟩ := by
  have hiq : i ∈ st.queue := by rw [hq]; exact List.mem_cons_self i rest
  have hiS : i ∉ S := fun h => hC.nqueue i h hiq
  constructor
  · dsimp only
    intro s hs hmem
    rcases List.mem_append.mp hmem with h | h
    · exact hC.ncomp s hs h
    · have : s = i := by simpa using h
      subst this
      exact hiS hs
  · dsimp only
    intro s hs hmem
    rcases List.mem_append.mp hmem with h | h
    · exact hC.nqueue s hs (by rw [hq]; exact List.mem_cons_of_mem i h)
    · obtain ⟨d, hd, hdS⟩ := hScyc s hs
      have hz := succ_newQ_zero hnodup hInv hiq h
      rw [succ_inDeg_eq hnodup hInv hiq s (hSsub s hs)] at hz
      have hpos : 0 < (depsOf cfg.tasks s).countP
          (fun d => decide (d ∉ st.completed ++ [i])) := by
        rw [List.countP_pos_iff]
        refine ⟨d, hd, ?_⟩
        have hdc : d ∉ st.completed := hC.ncomp d hdS
        have hdi : d ≠ i := fun he => hiS (he ▸ hdS)
        simp [hdc, hdi]
      omega
  · dsimp only
    intro s hs
    rw [List.map_append]
    intro hmem
    rcases List.mem_append.mp hmem with h | h
    · exact hC.ntrace s hs h
    · have : s = i := by simpa using h
      subst this
      exact hiS hs

/-- Preservation of the cycle-avoidance invariant over a failed,
aborted or skipped step. -/
theorem schedInvC_tail_step {st : SchedState} {i : Nat}
    {rest : List Nat} {S : Finset Nat}
    (hq : st.queue = i :: rest) (hC : SchedInvC S st) :
    SchedInvC S
      ⟨rest, st.inDeg, st.completed, st.store,
        st.trace ++ [⟨i, st.completed, st.store⟩]⟩ := by
  have hiq : i ∈ st.queue := by rw [hq]; exact List.mem_cons_self i rest
  have hiS : i ∉ S := fun h => hC.nqueue i h hiq
  refine ⟨hC.ncomp, ?_, ?_⟩
  · intro s hs hmem
    exact hC.nqueue s hs (by rw [hq]; exact List.mem_cons_of_mem i hmem)
  · dsimp only
    intro s hs
    rw [List.map_append]
    intro hmem
    rcases List.mem_append.mp hmem with h | h
    · exact hC.ntrace s hs h
    · have : s = i := by simpa using h
      subst this
      exact hiS hs

theorem runSched_succ_nil {cfg : SchedConfig} {fuel : Nat} {st : SchedState}
    (hq : st.queue = []) :
    runSched cfg (fuel + 1) st
      = (some (decide (st.completed.length = cfg.tasks.length)), st) := by
  rw [runSched, hq]

theorem runSched_succ_success {cfg : SchedConfig} {fuel : Nat} {st : SchedState}
    {i : Nat} {rest : List Nat} (hq : st.queue = i :: rest)
    (ho : cfg.outcome i = StepResult.success) :
    runSched cfg (fuel + 1) st = runSched cfg fuel
      ⟨rest ++ (processDeps st.inDeg (adjOf cfg.tasks i)).2,
        (processDeps st.inDeg (adjOf cfg.tasks i)).1,
        st.completed ++ [i],
        markStepAsSuccessful i (cfg.winTree i) st.store,
        st.trace ++ [⟨i, st.completed, st.store⟩]⟩ := by
  rw [runSched, hq]
  dsimp only
  rw [ho]

theorem runSched_succ_failure {cfg : SchedConfig} {fuel : Nat} {st : SchedState}
    {i : Nat} {rest : List Nat} (hq : st.queue = i :: rest)
    (ho : cfg.outcome i = StepResult.failure) :
    runSched cfg (fuel + 1) st = runSched cfg fuel
      ⟨rest, st.inDeg, st.completed, st.store,
        st.trace ++ [⟨i, st.completed, st.store⟩]⟩ := by
  rw [runSched, hq]
  dsimp only
  rw [ho]

theorem runSched_succ_aborted {cfg : SchedConfig} {fuel : Nat} {st : SchedState}
    {i : Nat} {rest : List Nat} (hq : st.queue = i :: rest)
    (ho : cfg.outcome i = StepResult.aborted) :
    runSched cfg (fuel + 1) st
      = (some (decide (0 < st.completed.length)),
          ⟨rest, st.inDeg, st.completed, st.store,
            st.trace ++ [⟨i, st.completed, st.store⟩]⟩) := by
  rw [runSched, hq]
  dsimp only
  rw [ho]

theorem runSched_succ_skipped {cfg : SchedConfig} {fuel : Nat} {st : SchedState}
    {i : Nat} {rest : List Nat} (hq : st.queue = i :: rest)
    (ho : cfg.outcome i = StepResult.skipped) :
    runSched cfg (fuel + 1) st
      = (some (decide (0 < st.completed.length)),
          ⟨rest, st.inDeg, st.completed, st.store,
            st.trace ++ [⟨i, st.completed, st.store⟩]⟩) := by
  rw [runSched, hq]
  dsimp only
  rw [ho]

/-- The loop invariant holds of the final state, whatever the
per-task outcomes and the fuel. -/
theorem runSched_inv (cfg : SchedConfig)
    (hnodup : (taskIds cfg.tasks).Nodup) :
    ∀ (fuel : Nat) (st : SchedState), SchedInv cfg st →
      SchedInv cfg (runSched cfg fuel st).2 := by
  intro fuel
  induction fuel with
  | zero => intro st h; exact h
  | succ fuel ih =>
    intro st h
    rcases hq : st.queue with _ | ⟨i, rest⟩
    · rw [runSched_succ_nil hq]; exact h
    · cases ho : cfg.outcome i with
      | success =>
        rw [runSched_succ_success hq ho]
        exact ih _ (schedInv_success_step hnodup hq h)
      | failure =>
        rw [runSched_succ_failure hq ho]
        exact ih _ (schedInv_tail_step hq h)
      | aborted =>
        rw [runSched_succ_aborted hq ho]
        exact schedInv_tail_step hq h
      | skipped =>
        rw [runSched_succ_skipped hq ho]
        exact schedInv_tail_step hq h

/-- The cycle-avoidance invariant holds of the final state. -/
theorem runSched_invC (cfg : SchedConfig)
    (hnodup : (taskIds cfg.tasks).Nodup) (S : Finset Nat)
    (hSsub : ∀ s ∈ S, s ∈ taskIds cfg.tasks)
    (hScyc : ∀ s ∈ S, ∃ d ∈ depsOf cfg.tasks s, d ∈ S) :
    ∀ (fuel : Nat) (st : SchedState), SchedInv cfg st → SchedInvC S st →
      SchedInvC S (runSched cfg fuel st).2 := by
  intro fuel
  induction fuel with
  | zero => intro st _ hC; exact hC
  | succ fuel ih =>
    intro st h hC
    rcases hq : st.queue with _ | ⟨i, rest⟩
    · rw [runSched_succ_nil hq]; exact hC
    · cases ho : cfg.outcome i with
      | success =>
        rw [runSched_succ_success hq ho]
        exact ih _ (schedInv_success_step hnodup hq h)
          (schedInvC_success_step hnodup hq h hSsub hScyc hC)
      | failure =>
        rw [runSched_succ_failure hq ho]
        exact ih _ (schedInv_tail_step hq h) (schedInvC_tail_step hq hC)
      | aborted =>
        rw [runSched_succ_aborted hq ho]
        exact schedInvC_tail_step hq hC
      | skipped =>
        rw [runSched_succ_skipped hq ho]
        exact schedInvC_tail_step hq hC

/-- With every task succeeding and enough fuel, the loop reaches the
empty queue and reports whether all tasks completed; the invariants
hold at the end. -/
theorem runSched_success_run (cfg : SchedConfig)
    (hnodup : (taskIds cfg.tasks).Nodup)
    (hsucc : ∀ i ∈ taskIds cfg.tasks, cfg.outcome i = StepResult.success) :
    ∀ (fuel : Nat) (st : SchedState), SchedInv cfg st → SchedInvS cfg st →
      schedMeasure cfg st + 1 ≤ fuel →
      SchedInv cfg (runSched cfg fuel st).2 ∧
      SchedInvS cfg (runSched cfg fuel st).2 ∧
      (runSched cfg fuel st).2.queue = [] ∧
      (runSched cfg fuel st).1
        = some (decide
            ((runSched cfg fuel st).2.completed.length = cfg.tasks.length)) := by
  intro fuel
  induction fuel with
  | zero => intro st _ _ hfuel; omega
  | succ fuel ih =>
    intro st h hS hfuel
    rcases hq : st.queue with _ | ⟨i, rest⟩
    · rw [runSched_succ_nil hq]
      exact ⟨h, hS, hq, rfl⟩
    · have hiq : i ∈ st.queue := by rw [hq]; exact List.mem_cons_self i rest
      have ho : cfg.outcome i = StepResult.success := hsucc i (h.qsub i hiq)
      rw [runSched_succ_success hq ho]
      refine ih _ (schedInv_success_step hnodup hq h)
        (schedInvS_success_step hnodup hq h hS) ?_
      have hmeas := processDeps_measure hnodup (adjOf cfg.tasks i) st.inDeg
        (fun j hj => adjOf_sub hj)
      have hlen : (rest ++ (processDeps st.inDeg (adjOf cfg.tasks i)).2).length
          = rest.length + (processDeps st.inDeg (adjOf cfg.tasks i)).2.length :=
        List.length_append rest _
      have hql : st.queue.length = rest.length + 1 := by rw [hq]; rfl
      rw [schedMeasure] at hfuel ⊢
      dsimp only
      omega

theorem sumInDeg_init (cfg : SchedConfig)
    (hnodup : (taskIds cfg.tasks).Nodup) :
    sumInDeg (taskIds cfg.tasks) (initInDeg cfg.tasks)
      = (cfg.tasks.map (fun p => p.2.length)).sum := by
  rw [sumInDeg, taskIds, List.map_map]
  refine congrArg List.sum ?_
  refine List.map_congr_left ?_
  intro p hp
  have hdeps : depsOf cfg.tasks p.1 = p.2 := depsOf_mem_of_nodup hnodup hp
  simp [Function.comp, initInDeg, hdeps]

theorem schedMeasure_init_le (cfg : SchedConfig)
    (hnodup : (taskIds cfg.tasks).Nodup) :
    schedMeasure cfg (initState cfg) + 1 ≤ schedFuel cfg := by
  rw [schedMeasure, schedFuel, initState]
  dsimp only
  have h1 : (initQueue cfg.tasks).length ≤ cfg.tasks.length := by
    calc (initQueue cfg.tasks).length
        ≤ (taskIds cfg.tasks).length := List.length_filter_le _ _
      _ = cfg.tasks.length := List.length_map _ _
  have h2 := sumInDeg_init cfg hnodup
  omega

/-- The three final-state facts shared by the all-success claim
theorems. -/
theorem runScheduler_success_facts (cfg : SchedConfig)
    (hnodup : (taskIds cfg.tasks).Nodup)
    (hsucc : ∀ i ∈ taskIds cfg.tasks, cfg.outcome i = StepResult.success) :
    SchedInv cfg (runScheduler cfg).2 ∧
    SchedInvS cfg (runScheduler cfg).2 ∧
    (runScheduler cfg).2.queue = [] ∧
    (runScheduler cfg).1
      = some (decide ((runScheduler cfg).2.completed.length = cfg.tasks.length)) :=
  runSched_success_run cfg hnodup hsucc (schedFuel cfg) (initState cfg)
    (schedInv_init cfg hnodup) (schedInvS_init cfg)
    (schedMeasure_init_le cfg hnodup)

/-! # Theorems -/

/-- Claim C8.  The full-replace build is idempotent: because
`build_project_structure` first removes and recreates the whole target
directory, its result does not depend on the prior target tree at all,
and building the same file list a second time over the first result
reproduces that result exactly. -/
theorem buildProjectStructure_idempotent :
    (∀ (prior : PTree) (files : List FileInfo),
      buildProjectStructure (buildProjectStructure prior files) files =
        buildProjectStructure prior files) ∧
    ∀ (prior1 prior2 : PTree) (files : List FileInfo),
      buildProjectStructure prior1 files = buildProjectStructure prior2 files :=
  ⟨fun _ _ => rfl, fun _ _ _ => rfl⟩

/-- Claim C9.  The dependency-file sanitization drops every line whose
stripped, lowercased text merely starts with a standard-library name:
the third-party line `requests` is removed because it starts with
`re`, although the claim (and the surrounding code comments, which
speak only of removing standard-library modules) say such a line is
preserved.  The first conjunct evaluates the sanitizer at the failing
input; the others show a true standard-library line and a blank line
are dropped while `flask` survives. -/
theorem sanitizeDependency_drops_requests :
    sanitizeDependencyLines ["requests"] = [] ∧
    keepDependencyLine "requests" = false ∧
    sanitizeDependencyLines ["re", "  ", "requests", "flask"] = ["flask"] ∧
    sanitizeDependencyFile "requests\n" = "\n" := by
  refine ⟨by decide, by decide, by decide, ?_⟩
  decide

/-- Claim C10.  The content-unwrap sanitization touches only files
whose basename is exactly `requirements.txt`: for every other path the
sanitizer returns the content verbatim, the full-replace build writes
the raw content at the path, and a `replace_file` or `new_file`
modification instruction writes the raw content at the path.  The
dependency-manifest name an attempt declares is not consulted by the
builder at all. -/
theorem sanitize_only_requirements_basename :
    (∀ (p content : String), pathName p ≠ "requirements.txt" →
      sanitizeRequirementsContent p content = content) ∧
    (∀ (tree : PTree) (p content : String), p ≠ "" →
      pathName p ≠ "requirements.txt" →
      writeFileEntry tree ⟨some p, some content⟩ p = some content) ∧
    ∀ (tree : PTree) (ty p content : String), p ≠ "" →
      (ty = "replace_file" ∨ ty = "new_file") →
      pathName p ≠ "requirements.txt" →
      applyOneInstruction tree ⟨some ty, some p, some content, []⟩ p = some content := by
  have hs : ∀ (p content : String), pathName p ≠ "requirements.txt" →
      sanitizeRequirementsContent p content = content := by
    intro p content h
    simp [sanitizeRequirementsContent, h]
  refine ⟨hs, ?_, ?_⟩
  · intro tree p content hne h
    simp [writeFileEntry, hne, Function.update_same, hs p content h]
  · intro tree ty p content hne hty h
    rcases hty with hty | hty <;>
      simp [applyOneInstruction, hne, hty, Function.update_same, hs p content h]

/-- Claim C2.  When the generator response fails shape validation on
every attempt (and the loop's preconditions hold, so no early abort),
the loop performs exactly `maxAttempts` generation attempts; attempt
`k` (1-based, trace index `k-1`) is prompted with a feedback section
that is empty for `k = 1` and otherwise is the fixed header followed
by the `k-1` prior attempts' feedback messages verbatim, in order,
joined by the delimiter (`feedbackSectionOf` is literally that
concatenation); every attempt fails validation before any tree is
built; and the step's outcome is abort with no payload. -/
theorem initialGeneration_always_invalid (gen : Nat → GenResponse)
    (buildOk : Nat → Bool) (verify : Nat → StepResult × Option String)
    (maxAttempts : Nat)
    (h : ∀ k, (validateInitialCodeResponse (gen k)).1 = false) :
    (executeInitialGenerationStep true gen buildOk verify maxAttempts).1
      = (StepResult.aborted, none) ∧
    (executeInitialGenerationStep true gen buildOk verify maxAttempts).2
      = (List.range maxAttempts).map (fun i =>
          ⟨i + 1, feedbackSectionOf ((List.range i).map (shapeMsg gen)),
            true, false⟩) ∧
    (executeInitialGenerationStep true gen buildOk verify maxAttempts).2.length
      = maxAttempts ∧
    ∀ rec ∈ (executeInitialGenerationStep true gen buildOk verify maxAttempts).2,
      rec.buildAttempted = false ∧ rec.validationFailed = true := by
  have hrun : executeInitialGenerationStep true gen buildOk verify maxAttempts
      = ((StepResult.aborted, none),
          (List.range maxAttempts).map (fun i =>
            ⟨i + 1, feedbackSectionOf ((List.range i).map (shapeMsg gen)),
              true, false⟩)) := by
    have := initialGenLoop_all_invalid gen buildOk verify h maxAttempts 0 []
    simpa [executeInitialGenerationStep] using this
  refine ⟨by rw [hrun], by rw [hrun], by rw [hrun]; simp, ?_⟩
  intro rec hrec
  rw [hrun] at hrec
  obtain ⟨i, _, hi⟩ := List.mem_map.mp hrec
  subst hi
  exact ⟨rfl, rfl⟩

/-- Witness for C2: a generator that always returns a non-object
response, with attempt cap 3. -/
theorem initialGeneration_always_invalid_witness :
    (∀ k, (validateInitialCodeResponse ((fun _ => ⟨false, []⟩ : Nat → GenResponse) k)).1
      = false) ∧
    (executeInitialGenerationStep true (fun _ => ⟨false, []⟩) (fun _ => true)
      (fun _ => (StepResult.success, none)) 3).1 = (StepResult.aborted, none) ∧
    (executeInitialGenerationStep true (fun _ => ⟨false, []⟩) (fun _ => true)
      (fun _ => (StepResult.success, none)) 3).2.length = 3 :=
  ⟨fun _ => rfl,
   (initialGeneration_always_invalid (fun _ => ⟨false, []⟩) (fun _ => true)
     (fun _ => (StepResult.success, none)) 3 (fun _ => rfl)).1,
   (initialGeneration_always_invalid (fun _ => ⟨false, []⟩) (fun _ => true)
     (fun _ => (StepResult.success, none)) 3 (fun _ => rfl)).2.2.1⟩

/-- Counterexample to claim C7 as stated.  First: an edit with
`start_line = end_line = 3` — which the claim calls inverted
(`start >= end`) and hence skipped — is in fact applied by the code
(the skip test compares the 0-based start with the end, so only
`start > end` is skipped): on a 10-line file it replaces line 3.
Second: an instruction consisting only of a genuinely out-of-range
edit (`start_line = 20` on a 2-line file) does not leave the file's
content unchanged when that content ends in a line feed: the file is
rewritten as the join of its split lines, dropping the trailing line
feed. -/
theorem lineDiff_skip_claim_counterexample :
    applyLineDiffs (some "l1\nl2\nl3\nl4\nl5\nl6\nl7\nl8\nl9\nl10")
        [⟨some 3, some 3, some "X"⟩]
      = "l1\nl2\nX\nl4\nl5\nl6\nl7\nl8\nl9\nl10" ∧
    applyLineDiffs (some "l1\nl2\nl3\nl4\nl5\nl6\nl7\nl8\nl9\nl10")
        [⟨some 3, some 3, some "X"⟩]
      ≠ "l1\nl2\nl3\nl4\nl5\nl6\nl7\nl8\nl9\nl10" ∧
    applyLineDiffs (some "a\nb\n") [⟨some 20, some 21, some "Z"⟩] = "a\nb" ∧
    applyLineDiffs (some "a\nb\n") [⟨some 20, some 21, some "Z"⟩] ≠ "a\nb\n" := by
  exact ⟨by decide, by decide, by decide, by decide⟩

/-- Claim C7, amended.  An edit is skipped exactly when its 0-based
start index is negative, its end exceeds the current line count, or
the 0-based start is at least the end (`start_line > end_line` in
1-based terms; `start_line = end_line` is an applied single-line
replacement).  An instruction consisting only of skipped edits
rewrites the file as the line-feed join of its split lines — which is
the original content verbatim exactly when that content does not end
in a line feed. -/
theorem lineDiffs_all_skipped (content : String) (diffs : List LineDiff)
    (h : ∀ d ∈ diffs, diffSkipped (pySplitlines content).length d) :
    applyLineDiffs (some content) diffs = joinLines (pySplitlines content) ∧
    (content.data.getLast? ≠ some '\n' →
      applyLineDiffs (some content) diffs = content) := by
  have hmem : ∀ d ∈ pySortDesc diffs, diffSkipped (pySplitlines content).length d :=
    fun d hd => h d ((pySortDesc_perm diffs).mem_iff.mp hd)
  have h1 : applyLineDiffs (some content) diffs = joinLines (pySplitlines content) := by
    rw [applyLineDiffs]
    rw [foldl_applyOneDiff_skipped hmem]
  exact ⟨h1, fun hLF => h1.trans (joinLines_pySplitlines hLF)⟩

/-- Witness for the amended claim C7, at the 2-line file `a\nb` with
the out-of-range edit of the claim's example shape. -/
theorem lineDiffs_all_skipped_witness :
    (∀ d ∈ [(⟨some 20, some 21, some "Z"⟩ : LineDiff)],
      diffSkipped (pySplitlines "a\nb").length d) ∧
    applyLineDiffs (some "a\nb") [⟨some 20, some 21, some "Z"⟩] = "a\nb" :=
  ⟨by decide,
   (lineDiffs_all_skipped "a\nb" [⟨some 20, some 21, some "Z"⟩] (by decide)).2
     (by decide)⟩

/-- Counterexample to claim C6 as stated.  On the 3-line file
`a\nb\n\n` (whose third line is empty), the ascending disjoint valid
single-line edits at lines 1 and 2 produce different bytes when passed
to the builder in one batch (`X\nY\n`) versus one call at a time in
descending order (`X\nY`): each builder call rejoins the lines, and
the intermediate write after the line-2 edit drops the trailing empty
line, so the batch keeps the trailing empty line while the one-at-a-time result loses it. -/
theorem lineDiffs_batch_counterexample :
    applyLineDiffs (some "a\nb\n\n")
        [⟨some 1, some 1, some "X"⟩, ⟨some 2, some 2, some "Y"⟩] = "X\nY\n" ∧
    applyLineDiffs
        (some (applyLineDiffs (some "a\nb\n\n") [⟨some 2, some 2, some "Y"⟩]))
        [⟨some 1, some 1, some "X"⟩] = "X\nY" ∧
    applyLineDiffs (some "a\nb\n\n")
        [⟨some 1, some 1, some "X"⟩, ⟨some 2, some 2, some "Y"⟩]
      ≠ applyLineDiffs
          (some (applyLineDiffs (some "a\nb\n\n") [⟨some 2, some 2, some "Y"⟩]))
          [⟨some 1, some 1, some "X"⟩] := by
  exact ⟨by decide, by decide, by decide⟩

/-- Claim C6, amended.  For a nonempty list of line-range edits with
pairwise disjoint valid ranges given in ascending start-line order,
the batch application through the tree builder equals applying the
edits through the builder one at a time in descending start-line
order, provided neither the file nor any replacement content carries
an empty line (in particular the file does not end in a line feed):
under that proviso every intermediate write is read back verbatim.
Disjointness in ascending order is expressed as: each edit ends
(exclusive 0-based stop) no later than the next one starts. -/
theorem lineDiffs_batch_eq_one_at_a_time (content : String) (diffs : List LineDiff)
    (hne : diffs ≠ [])
    (hval : ∀ d ∈ diffs, 0 ≤ diffStart d ∧ diffStart d < diffStop d ∧
      diffStop d ≤ ((pySplitlines content).length : Int))
    (hord : List.Pairwise (fun a b => diffStop a ≤ diffStart b) diffs)
    (hlines : ∀ l ∈ pySplitlines content, l ≠ "")
    (hnew : ∀ d ∈ diffs, ∀ l ∈ pySplitlines (d.newContent.getD ""), l ≠ "") :
    applyLineDiffs (some content) diffs
      = diffs.reverse.foldl (fun c d => applyLineDiffs (some c) [d]) content := by
  have hasc : List.Pairwise (fun a b => a.sortKey < b.sortKey) diffs := by
    refine hord.imp_of_mem ?_
    intro a b ha _ hab
    exact sortKey_lt_of_ranges hab ⟨(hval a ha).1, (hval a ha).2.1⟩
  have hLprop : ∀ l ∈ pySplitlines content, '\n' ∉ l.data ∧ l ≠ "" :=
    fun l hl => ⟨pySplitlines_no_newline hl, hlines l hl⟩
  rcases hrev : diffs.reverse with _ | ⟨d, ds⟩
  · exact absurd (by simpa using congrArg List.reverse hrev) hne
  · have hdmem : d ∈ diffs := by
      have : d ∈ diffs.reverse := by rw [hrev]; exact List.mem_cons_self d ds
      exact List.mem_reverse.mp this
    have hdsmem : ∀ e ∈ ds, e ∈ diffs := by
      intro e he
      have : e ∈ diffs.reverse := by
        rw [hrev]; exact List.mem_cons_of_mem d he
      exact List.mem_reverse.mp this
    rw [applyLineDiffs, pySortDesc_of_ascending hasc, hrev]
    rw [List.foldl_cons, List.foldl_cons]
    have hfirst : applyLineDiffs (some content) [d]
        = joinLines (applyOneDiff (pySplitlines content) d) := by
      rw [applyLineDiffs, pySortDesc_single]
      rfl
    rw [hfirst]
    have hL1 : ∀ l ∈ applyOneDiff (pySplitlines content) d, '\n' ∉ l.data ∧ l ≠ "" := by
      intro l hl
      rcases applyOneDiff_mem hl with h | h
      · exact hLprop l h
      · exact ⟨pySplitlines_no_newline h, hnew d hdmem l h⟩
    rw [foldl_single_applyLineDiffs ds (applyOneDiff (pySplitlines content) d) hL1
      (fun e he l hl => hnew e (hdsmem e he) l hl)]

/-- Witness for the amended claim C6 on a 3-line file with two
disjoint ascending single-line edits. -/
theorem lineDiffs_batch_eq_one_at_a_time_witness :
    ([(⟨some 1, some 1, some "X"⟩ : LineDiff), ⟨some 3, some 3, some "Y"⟩] ≠ []) ∧
    applyLineDiffs (some "a\nb\nc")
        [⟨some 1, some 1, some "X"⟩, ⟨some 3, some 3, some "Y"⟩]
      = [(⟨some 1, some 1, some "X"⟩ : LineDiff),
          ⟨some 3, some 3, some "Y"⟩].reverse.foldl
          (fun c d => applyLineDiffs (some c) [d]) "a\nb\nc" :=
  ⟨by decide,
   lineDiffs_batch_eq_one_at_a_time "a\nb\nc"
     [⟨some 1, some 1, some "X"⟩, ⟨some 3, some 3, some "Y"⟩]
     (by decide) (by decide)
     (by
       refine List.Pairwise.cons ?_ (List.pairwise_singleton _ _)
       intro b hb
       rcases List.mem_singleton.mp hb with h
       subst h
       decide)
     (by decide) (by decide)⟩

/-- Counterexample to claim C1 as stated.  The two-task cycle
`1 ↔ 2` has no dangling dependency and every started task would
succeed (vacuously: none is started), yet neither task is ever
started, so "every task in the mapping is eventually started exactly
once" fails without an acyclicity hypothesis. -/
theorem scheduler_counterexample_cycle_not_started :
    danglingFree cycleTasks = true ∧
    startedIds cycleCfg = [] ∧
    1 ∈ taskIds cycleCfg.tasks ∧
    (startedIds cycleCfg).count 1 ≠ 1 := by
  exact ⟨by decide, by decide, by decide, by decide⟩

/-- Claim C1, amended.  For a task mapping with pairwise-distinct step
numbers and no dangling dependency: every task is started at most
once; a task is started only when every one of its dependencies is in
the completed set; and — amended: provided additionally the dependency
graph is acyclic — if every task returns success, every task in the
mapping is started exactly once. -/
theorem scheduler_visits_once_after_deps (cfg : SchedConfig)
    (hnodup : (taskIds cfg.tasks).Nodup)
    (hnd : danglingFree cfg.tasks = true) :
    (startedIds cfg).Nodup ∧
    (∀ ev ∈ (runScheduler cfg).2.trace, ∀ d ∈ depsOf cfg.tasks ev.id,
      d ∈ ev.completedAtStart) ∧
    (¬HasCycle cfg.tasks →
      (∀ i ∈ taskIds cfg.tasks, cfg.outcome i = StepResult.success) →
      ∀ i ∈ taskIds cfg.tasks, (startedIds cfg).count i = 1) := by
  have hInv : SchedInv cfg (runScheduler cfg).2 :=
    runSched_inv cfg hnodup (schedFuel cfg) (initState cfg)
      (schedInv_init cfg hnodup)
  refine ⟨hInv.tnodup, hInv.tdeps, ?_⟩
  intro hacyc hsucc
  obtain ⟨hI, hS, hqnil, _⟩ := runScheduler_success_facts cfg hnodup hsucc
  have hall : ∀ j ∈ taskIds cfg.tasks, j ∈ (runScheduler cfg).2.completed := by
    by_contra hnot
    push_neg at hnot
    obtain ⟨j0, hj0, hj0c⟩ := hnot
    refine hacyc ?_
    refine ⟨(taskIds cfg.tasks).toFinset.filter
      (fun j => j ∉ (runScheduler cfg).2.completed), ?_, ?_, ?_⟩
    · exact Finset.mem_powerset.mpr (Finset.filter_subset _ _)
    · exact ⟨j0, Finset.mem_filter.mpr ⟨List.mem_toFinset.mpr hj0, hj0c⟩⟩
    · intro s hs
      obtain ⟨hsid, hsc⟩ := Finset.mem_filter.mp hs
      have hsid2 : s ∈ taskIds cfg.tasks := List.mem_toFinset.mp hsid
      have hnz : (runScheduler cfg).2.inDeg s ≠ 0 := by
        intro hz
        rcases hS.ready s hsid2 hz with h | h
        · rw [hqnil] at h; simp at h
        · exact hsc h
      have hdeg := hI.deg s hsid2
      have hcpos : 0 < (depsOf cfg.tasks s).countP
          (fun d => decide (d ∉ (runScheduler cfg).2.completed)) := by
        omega
      obtain ⟨d, hd, hdp⟩ := List.countP_pos_iff.mp hcpos
      refine ⟨d, hd, ?_⟩
      have hdc : d ∉ (runScheduler cfg).2.completed := by simpa using hdp
      exact Finset.mem_filter.mpr
        ⟨List.mem_toFinset.mpr (depsOf_sub_of_danglingFree hnd s d hd), hdc⟩
  intro i hi
  have hic : i ∈ (runScheduler cfg).2.completed := hall i hi
  rw [startedIds, hS.teq]
  exact List.count_eq_one_of_mem hI.cnodup hic

/-- Witness for the amended claim C1 on the acyclic example graph. -/
theorem scheduler_visits_once_after_deps_witness :
    (startedIds sampleCfg).Nodup ∧ (startedIds sampleCfg).count 3 = 1 :=
  ⟨(scheduler_visits_once_after_deps sampleCfg (by decide) (by decide)).1,
   (scheduler_visits_once_after_deps sampleCfg (by decide) (by decide)).2.2
     (by decide) (by decide) 3 (by decide)⟩

/-- Claim C3.  On a mapping with a dependency cycle (given as a
nonempty set `S` of step numbers each depending on another member)
and no dangling dependency, when every started task succeeds: no task
of the cycle is ever started, the ready queue empties with the run
reporting failure (schedule incomplete), and strictly fewer tasks than
the total complete. -/
theorem scheduler_cycle_incomplete (cfg : SchedConfig)
    (hnodup : (taskIds cfg.tasks).Nodup)
    (hnd : danglingFree cfg.tasks = true)
    (S : Finset Nat) (hSne : S.Nonempty)
    (hSsub : ∀ s ∈ S, s ∈ taskIds cfg.tasks)
    (hScyc : ∀ s ∈ S, ∃ d ∈ depsOf cfg.tasks s, d ∈ S)
    (hsucc : ∀ i ∈ taskIds cfg.tasks, cfg.outcome i = StepResult.success) :
    (∀ s ∈ S, s ∉ startedIds cfg) ∧
    (runScheduler cfg).2.queue = [] ∧
    (runScheduler cfg).2.completed.length < cfg.tasks.length ∧
    (runScheduler cfg).1 = some false := by
  obtain ⟨hI, hS2, hqnil, hres⟩ := runScheduler_success_facts cfg hnodup hsucc
  have hCinit : SchedInvC S (initState cfg) := by
    refine ⟨?_, ?_, ?_⟩
    · intro s _ hmem; simp [initState] at hmem
    · intro s hs hmem
      rw [initState] at hmem
      have h2 := (List.mem_filter.mp hmem).2
      obtain ⟨d, hd, _⟩ := hScyc s hs
      have hlen : 0 < (depsOf cfg.tasks s).length := List.length_pos_of_mem hd
      have : initInDeg cfg.tasks s = 0 := by simpa using h2
      rw [initInDeg] at this
      omega
    · intro s _ hmem; simp [initState] at hmem
  have hC : SchedInvC S (runScheduler cfg).2 :=
    runSched_invC cfg hnodup S hSsub hScyc (schedFuel cfg) (initState cfg)
      (schedInv_init cfg hnodup) hCinit
  have hlen : (runScheduler cfg).2.completed.length < cfg.tasks.length := by
    have hsubF : (runScheduler cfg).2.completed.toFinset
        ⊆ (taskIds cfg.tasks).toFinset \ S := by
      intro a ha
      have ham := List.mem_toFinset.mp ha
      refine Finset.mem_sdiff.mpr
        ⟨List.mem_toFinset.mpr (hI.csub a ham), ?_⟩
      intro haS
      exact hC.ncomp a haS ham
    have hcard := Finset.card_le_card hsubF
    have hSin : S ⊆ (taskIds cfg.tasks).toFinset := by
      intro s hs; exact List.mem_toFinset.mpr (hSsub s hs)
    rw [Finset.card_sdiff hSin] at hcard
    have hc1 : (runScheduler cfg).2.completed.toFinset.card
        = (runScheduler cfg).2.completed.length :=
      List.toFinset_card_of_nodup hI.cnodup
    have hc2 : (taskIds cfg.tasks).toFinset.card = (taskIds cfg.tasks).length :=
      List.toFinset_card_of_nodup hnodup
    have hc3 : (taskIds cfg.tasks).length = cfg.tasks.length :=
      List.length_map _ _
    have hc4 : 0 < S.card := Finset.card_pos.mpr hSne
    have hc5 : S.card ≤ (taskIds cfg.tasks).toFinset.card :=
      Finset.card_le_card hSin
    omega
  refine ⟨fun s hs => hC.ntrace s hs, hqnil, hlen, ?_⟩
  rw [hres]
  have : ((runScheduler cfg).2.completed.length = cfg.tasks.length) = False := by
    simp only [eq_iff_iff, iff_false]
    omega
  rw [decide_eq_false (by omega)]

/-- Witness for C3 on the concrete two-task cycle with the cycle set
`S = {1, 2}`. -/
theorem scheduler_cycle_incomplete_witness :
    (1 ∉ startedIds cycleCfg) ∧
    (runScheduler cycleCfg).2.completed.length < cycleCfg.tasks.length ∧
    (runScheduler cycleCfg).1 = some false :=
  ⟨(scheduler_cycle_incomplete cycleCfg (by decide) (by decide) {1, 2}
      (by decide) (by decide) (by decide) (by decide)).1 1 (by decide),
   (scheduler_cycle_incomplete cycleCfg (by decide) (by decide) {1, 2}
      (by decide) (by decide) (by decide) (by decide)).2.2.1,
   (scheduler_cycle_incomplete cycleCfg (by decide) (by decide) {1, 2}
      (by decide) (by decide) (by decide) (by decide)).2.2.2⟩

/-- Counterexample to claim C4 as stated.  In the graph
`{1: no deps, 2: [1], 3: [1]}` with the tasks listed in the order
1, 3, 2, tasks 2 and 3 become ready simultaneously but task 3 is
processed before task 2: the processing order of simultaneously ready
tasks follows the order in which tasks appear in the input mapping
(which fixes the adjacency-list order), not ascending task id. -/
theorem scheduler_order_counterexample :
    startedIds sampleCfgPerm = [1, 3, 2] ∧
    startedIds sampleCfgPerm ≠ [1, 2, 3] := by
  exact ⟨by decide, by decide⟩

/-- Claim C4, amended.  The ready queue is FIFO: zero-dependency
tasks are enqueued in input-mapping order, and a task is enqueued the
moment its last dependency completes, dependents of one completed
task in input-mapping order — so simultaneously ready tasks are
processed in input-mapping order, not ascending-id order.  In the
spec's example graph with tasks listed in ascending order the order
is 1, 2, 3 (2 before 3) and all tasks complete; with tasks 3 and 2
listed in the opposite order it is 1, 3, 2. -/
theorem scheduler_order_is_input_order :
    startedIds sampleCfg = [1, 2, 3] ∧
    (runScheduler sampleCfg).2.completed = [1, 2, 3] ∧
    (runScheduler sampleCfg).1 = some true ∧
    startedIds sampleCfgPerm = [1, 3, 2] ∧
    (runScheduler sampleCfgPerm).2.completed = [1, 3, 2] := by
  exact ⟨by decide, by decide, by decide, by decide, by decide⟩

/-- Claim C5.  `mark_step_as_successful` replaces the latest tree and
the task's accepted snapshot by exactly the winning attempt's tree
(full replacement: the stored trees equal the attempt tree, nothing
of the previous latest tree survives), and the scheduler starts a
task only when every dependency is already completed with its
accepted snapshot present in the store as exactly that dependency's
winning tree. -/
theorem latestTree_full_replacement_before_dependents (cfg : SchedConfig)
    (hnodup : (taskIds cfg.tasks).Nodup) :
    (∀ (n : Nat) (tree : PTree) (st : Store),
      (markStepAsSuccessful n tree st).latest = tree ∧
      (markStepAsSuccessful n tree st).snapshots n = some tree) ∧
    ∀ ev ∈ (runScheduler cfg).2.trace, ∀ d ∈ depsOf cfg.tasks ev.id,
      d ∈ ev.completedAtStart ∧
      ev.storeAtStart.snapshots d = some (cfg.winTree d) := by
  have hInv : SchedInv cfg (runScheduler cfg).2 :=
    runSched_inv cfg hnodup (schedFuel cfg) (initState cfg)
      (schedInv_init cfg hnodup)
  refine ⟨?_, ?_⟩
  · intro n tree st
    refine ⟨rfl, ?_⟩
    rw [markStepAsSuccessful]
    dsimp only
    exact Function.update_same n (some tree) st.snapshots
  · intro ev hev d hd
    have hdc : d ∈ ev.completedAtStart := hInv.tdeps ev hev d hd
    exact ⟨hdc, hInv.tsnap ev hev d hdc⟩

/-- Witness for C5: the full-replacement equalities at a concrete
store, and the trace of the two-task chain `1 ← 2`, whose second
start event holds task 1 completed with its snapshot in the store. -/
theorem latestTree_full_replacement_witness :
    (markStepAsSuccessful 1 (fun _ => some "tree1")
        ⟨fun _ => none, fun _ => none⟩).latest = (fun _ => some "tree1") ∧
    (markStepAsSuccessful 1 (fun _ => some "tree1")
        ⟨fun _ => none, fun _ => none⟩).snapshots 1 = some (fun _ => some "tree1") ∧
    ∃ ev ∈ (runScheduler sampleCfg).2.trace,
      ev.id = 3 ∧ 1 ∈ ev.completedAtStart ∧
      ev.storeAtStart.snapshots 1 = some (sampleCfg.winTree 1) := by
  have h := latestTree_full_replacement_before_dependents sampleCfg (by decide)
  refine ⟨(h.1 1 _ _).1, (h.1 1 _ _).2, ?_⟩
  have hlen : 2 < (runScheduler sampleCfg).2.trace.length := by decide
  have hget : (runScheduler sampleCfg).2.trace.getD 2
        ⟨0, [], ⟨fun _ => none, fun _ => none⟩⟩
      = (runScheduler sampleCfg).2.trace.get ⟨2, hlen⟩ := by
    rw [List.get_eq_getElem, List.getD_eq_getElem _ _ hlen]
  have hmem : (runScheduler sampleCfg).2.trace.getD 2
        ⟨0, [], ⟨fun _ => none, fun _ => none⟩⟩
      ∈ (runScheduler sampleCfg).2.trace := by
    rw [hget]
    exact List.get_mem (runScheduler sampleCfg).2.trace 2 hlen
  refine ⟨(runScheduler sampleCfg).2.trace.getD 2
    ⟨0, [], ⟨fun _ => none, fun _ => none⟩⟩, hmem, ?_, ?_⟩
  · decide
  · have hd : (1 : Nat) ∈ depsOf sampleCfg.tasks
        ((runScheduler sampleCfg).2.trace.getD 2
          ⟨0, [], ⟨fun _ => none, fun _ => none⟩⟩).id := by decide
    have h2 := h.2 _ hmem 1 hd
    exact ⟨h2.1, h2.2⟩

/-- Witness for C10 at a concrete non-requirements path. -/
theorem sanitize_only_requirements_basename_witness :
    sanitizeRequirementsContent "app/main.py" "alpha" = "alpha" ∧
    writeFileEntry (fun _ => none) ⟨some "app/main.py", some "alpha"⟩ "app/main.py"
      = some "alpha" ∧
    applyOneInstruction (fun _ => none)
      ⟨some "new_file", some "app/main.py", some "alpha", []⟩ "app/main.py"
      = some "alpha" :=
  ⟨sanitize_only_requirements_basename.1 "app/main.py" "alpha" (by decide),
   sanitize_only_requirements_basename.2.1 (fun _ => none) "app/main.py" "alpha"
     (by decide) (by decide),
   sanitize_only_requirements_basename.2.2 (fun _ => none) "new_file" "app/main.py"
     "alpha" (by decide) (Or.inr rfl) (by decide)⟩

end AutoProg
